import Mathlib

/-!
# Row projection of `cmd/avro/main.go`

A shallow embedding of the schema-driven row projector (`readRow`) and of the
driver (`main`) of the Avro-to-CSV exporter, together with the properties of
the projection that the specification states.

Go values of static type `interface{}` are embedded as the inductive type
`Value`; a Go `map[string]interface{}` is an association list whose lookup
returns the first binding of a key and the nil interface for a missing key.
A call of `readRow` has three possible outcomes: it returns a row and a nil
error, it returns a nil row and an error, or a failed type assertion panics.
Go strings are embedded as Lean strings (sequences of code points).
-/

set_option autoImplicit false

namespace Avro

/-! ## Library functions used by the program -/

/-- Worker of `strings.Replace` for a non-empty `old`: walks the text once,
replacing at most `n` non-overlapping occurrences from the left; `skip` counts
the characters of the occurrence just replaced that are still to be dropped. -/
def replaceAux (old new : List Char) : Nat → Nat → List Char → List Char
  | _, _, [] => []
  | n, skip + 1, _ :: cs => replaceAux old new n skip cs
  | 0, 0, c :: cs => c :: cs
  | n + 1, 0, c :: cs =>
    if old.isPrefixOf (c :: cs) then new ++ replaceAux old new n (old.length - 1) cs
    else c :: replaceAux old new (n + 1) 0 cs

/-- Worker of `strings.Replace` for an empty `old`: `new` is inserted before
each character, and after the last one, at most `n` times in all. -/
def insertAux (new : List Char) : Nat → List Char → List Char
  | 0, s => s
  | _ + 1, [] => new
  | n + 1, c :: cs => new ++ c :: insertAux new n cs

/-- Go's `strings.Join`: the elements separated by `sep`. -/
def strings.Join : List String → String → String
  | [], _ => ""
  | [e], _ => e
  | e :: e2 :: rest, sep => e ++ sep ++ strings.Join (e2 :: rest) sep

/-- Go's `strings.Replace`: a copy of `s` with the first `n` non-overlapping
occurrences of `old` replaced by `new`; a negative `n` puts no limit on the
number of replacements. -/
def strings.Replace (s old new : String) (n : Int) : String :=
  if old = new ∨ n = 0 then s
  else
    let limit := if n < 0 then s.data.length + 1 else n.toNat
    if old.data = [] then ⟨insertAux new.data limit s.data⟩
    else ⟨replaceAux old.data new.data limit 0 s.data⟩

/-- Expansion of the `%s` verbs of a format by the successive operands; `skip`
counts the characters of a verb still to be dropped, and a verb without an
operand prints as `%!s(MISSING)`. -/
def sprintfAux : Nat → List Char → List String → List Char
  | _, [], _ => []
  | skip + 1, _ :: rest, args => sprintfAux skip rest args
  | 0, c :: rest, args =>
    if c = '%' ∧ rest.head? = some 's' then
      match args with
      | a :: args2 => a.data ++ sprintfAux 1 rest args2
      | [] => "%!s(MISSING)".data ++ sprintfAux 1 rest []
    else c :: sprintfAux 0 rest args

/-- Go's `fmt.Errorf` restricted to `%s` verbs with string operands; the error
is represented by its message. -/
def fmt.Errorf (format : String) (args : List String) : String :=
  ⟨sprintfAux 0 format.data args⟩

/-- Go's `errors.New`; the error is represented by its message. -/
def errors.New (text : String) : String := text

/-- Digit character of a value below the base, as in Go's digit table
`0123456789abcdefghijklmnopqrstuvwxyz`. -/
def digitChar (d : Nat) : Char :=
  if d < 10 then Char.ofNat (48 + d) else Char.ofNat (87 + d)

/-- Digits of `u` in the given base, least significant first; `fuel` bounds
the number of digits, as the 64-digit buffer of the library does. -/
def digitsRev (base : Nat) : Nat → Nat → List Char
  | 0, _ => []
  | fuel + 1, u =>
    if u < base then [digitChar u]
    else digitChar (u % base) :: digitsRev base fuel (u / base)

/-- Modelled from the spec: `strconv.FormatInt` of the Go standard library,
which is not part of the repository sources. The spec describes its result as
the canonical base-10 decimal string of a 64-bit signed integer with no
grouping and an optional leading minus sign. The model follows the library's
scheme: the magnitude is taken in 64-bit unsigned arithmetic, its digits are
produced by repeated division, and a minus sign is put in front of a negative
number. -/
def strconv.FormatInt (i : Int) (base : Nat) : String :=
  let u : Nat := (i % (2 : Int) ^ 64).toNat
  let mag : Nat := if i < 0 then (2 ^ 64 - u) % 2 ^ 64 else u
  let ds := (digitsRev base 64 mag).reverse
  ⟨if i < 0 then '-' :: ds else ds⟩

/-! ## Data model -/

/-- The constant `TYPE_STRING`. -/
def TYPE_STRING : String := "string"

/-- The constant `TYPE_LONG`. -/
def TYPE_LONG : String := "long"

/-- The constant `TYPE_BOOLEAN`. -/
def TYPE_BOOLEAN : String := "boolean"

/-- The constant `TYPE_DOUBLE`. -/
def TYPE_DOUBLE : String := "double"

/-- A field of the schema: `Name` and the list of type tokens `Type`. -/
structure SchemaField where
  Name : String
  Type_ : List String
deriving DecidableEq, Repr

/-- The `Schema` struct filled from the schema JSON of the container. -/
structure Schema where
  Name : String
  Type_ : String
  Namespace : String
  Fields : List SchemaField
deriving DecidableEq, Repr

/-- A Go `float64`, carried by its IEEE-754 bit pattern. -/
structure Float64 where
  bits : Nat
deriving DecidableEq, Repr

/-- A Go value of static type `interface{}`, by dynamic type: the nil
interface, `string`, `bool`, `int64`,  `float64`, `map[string]interface{}`, or
a value of any other dynamic type (named by `kind`). -/
inductive Value where
  | nil
  | string (s : String)
  | bool (b : Bool)
  | int64 (n : Int)
  | float64 (d : Float64)
  | other (kind : String)
  | map (entries : List (String × Value))

/-- Go's map index expression `m[key]` on a `map[string]interface{}`: the
bound value, or the nil interface when the key is missing. -/
def mapIndex : List (String × Value) → String → Value
  | [], _ => .nil
  | (k, v) :: rest, key => if k = key then v else mapIndex rest key

/-- Result of a call of `readRow`: the returned pair `(values, err)`, where a
nil slice and a nil error are `none`, or a run-time panic. -/
inductive Outcome where
  | ret (values : Option (List String)) (err : Option String)
  | panic
deriving DecidableEq, Repr

/-! ## `readRow` -/

/-- The loop of `readRow` over the schema fields: `i` is the index of the
current field and `values` the slice being filled. -/
def readRowLoop (FormatFloat : Float64 → String) (mapped : List (String × Value)) :
    List SchemaField → Nat → List String → Outcome
  | [], _, values => .ret (some values) none
  | field :: rest, i, values =>
    let typ := strings.Replace (strings.Join field.Type_ "") "null" "" 1
    match mapIndex mapped field.Name with
    | .nil => readRowLoop FormatFloat mapped rest (i + 1) values
    | .map val =>
      if typ = TYPE_STRING then
        match mapIndex val "string" with
        | .string s => readRowLoop FormatFloat mapped rest (i + 1) (values.set i s)
        | _ => .panic
      else if typ = TYPE_BOOLEAN then
        match mapIndex val "boolean" with
        | .bool b =>
          if b then readRowLoop FormatFloat mapped rest (i + 1) (values.set i "TRUE")
          else readRowLoop FormatFloat mapped rest (i + 1) (values.set i "FALSE")
        | _ => .panic
      else if typ = TYPE_LONG then
        match mapIndex val "long" with
        | .int64 numeric =>
          readRowLoop FormatFloat mapped rest (i + 1) (values.set i (strconv.FormatInt numeric 10))
        | _ => .panic
      else if typ = TYPE_DOUBLE then
        match mapIndex val "double" with
        | .float64 numeric =>
          readRowLoop FormatFloat mapped rest (i + 1) (values.set i (FormatFloat numeric))
        | _ => .panic
      else .ret none (some (fmt.Errorf "unknown type: %s" [typ]))
    | _ => .panic

/-- The function `readRow`. `FormatFloat` stands for the library call
`strconv.FormatFloat(numeric, 'E', -1, 64)`. -/
def readRow (FormatFloat : Float64 → String) (row : Value) (schema : Schema) : Outcome :=
  match row with
  | .map mapped =>
    readRowLoop FormatFloat mapped schema.Fields 0 (List.replicate schema.Fields.length "")
  | _ => .ret none (some (errors.New "error: unable to decode row"))

/-! ## `main` -/

/-- The way a run of the program ends: a call `os.Exit(code)`, the return of
`main`, or a run-time panic. -/
inductive Termination where
  | exit (code : Int)
  | returned
  | panicked
deriving DecidableEq, Repr

/-- Exit status of the process: `os.Exit(code)` gives the low eight bits of
the code, a normal return gives 0 and a panic makes the Go runtime exit
with 2. -/
def Termination.status : Termination → Int
  | .exit code => code % 256
  | .returned => 0
  | .panicked => 2

/-- What a run of `main` leaves behind: the records handed to the CSV writer
on standard output (each is flushed when written), and the way the run
ended. Log lines are not part of the model. -/
structure Run where
  stdout : List (List String)
  termination : Termination
deriving DecidableEq, Repr

/-- The container reader as `main` uses it: the schema text of
`reader.Codec().Schema()`, and for each successful `reader.Scan()` the result
of `reader.Read()`, `none` standing for a read error. -/
structure OCFReader where
  rawSchema : String
  rows : List (Option Value)

/-- The column list built by the first loop of `main`. -/
def columns (schema : Schema) : List String :=
  schema.Fields.foldl (fun columns field => columns ++ [field.Name]) []

/-- The loop `for reader.Scan() { ... }` of `main`; `out` holds the records
written so far. -/
def scanLoop (FormatFloat : Float64 → String) (schema : Schema) :
    List (Option Value) → List (List String) → Run
  | [], out => ⟨out, .returned⟩
  | none :: _, out => ⟨out, .exit (-1)⟩
  | some row :: rest, out =>
    match readRow FormatFloat row schema with
    | .ret values none => scanLoop FormatFloat schema rest (out ++ [values.getD []])
    | .ret _ (some _) => ⟨out, .exit (-1)⟩
    | .panic => ⟨out, .panicked⟩

/-- The function `main`. `Args` is `os.Args`; `Open` and `NewOCFReader` stand
for `os.Open` and `avro.NewOCFReader` (`none` is a returned error), and
`Unmarshal` for `json.Unmarshal` applied to a fresh `Schema`: it gives the
contents of the struct after the call and the returned error. -/
def main {File : Type} (FormatFloat : Float64 → String)
    (Unmarshal : String → Schema × Option String)
    (Open : String → Option File) (NewOCFReader : File → Option OCFReader)
    (Args : List String) : Run :=
  if Args.length < 2 then ⟨[], .exit (-1)⟩
  else
    let fileName := Args.getD 1 ""
    match Open fileName with
    | none => ⟨[], .exit (-1)⟩
    | some inHandle =>
      match NewOCFReader inHandle with
      | none => ⟨[], .exit (-1)⟩
      | some reader =>
        let rawSchema := reader.rawSchema
        let schema := (Unmarshal rawSchema).1
        scanLoop FormatFloat schema reader.rows [columns schema]

/-! ## Notions used in the statements -/

/-- The effective type of a field: the expression that `readRow` binds to
`typ` and dispatches on. -/
def effectiveType (tokens : List String) : String :=
  strings.Replace (strings.Join tokens "") "null" "" 1

/-- The effective type in the words of the specification: the token list with
the token `null` removed, the remaining tokens concatenated. -/
def specEffectiveType (tokens : List String) : String :=
  strings.Join (tokens.filter (fun t => t ≠ "null")) ""

/-- The four effective types that `readRow` renders. -/
def supported (typ : String) : Bool :=
  typ = TYPE_STRING || typ = TYPE_BOOLEAN || typ = TYPE_LONG || typ = TYPE_DOUBLE

/-- Whether a value is the nil interface. -/
def Value.isNil : Value → Bool
  | .nil => true
  | _ => false

/-- What one iteration of the loop of `readRow` does with a field. -/
inductive FieldResult where
  | skip
  | emit (s : String)
  | fail (msg : String)
  | abort
deriving DecidableEq, Repr

/-- One iteration of the loop of `readRow`, for a field with type list
`tokens` whose looked-up value is `rawVal`: the entry is left untouched
(`skip`), a text is stored in it (`emit`), an error is returned (`fail`) or a
type assertion panics (`abort`). -/
def projectField (FormatFloat : Float64 → String) (tokens : List String) (rawVal : Value) :
    FieldResult :=
  match rawVal with
  | .nil => .skip
  | .map val =>
    if effectiveType tokens = TYPE_STRING then
      match mapIndex val "string" with
      | .string s => .emit s
      | _ => .abort
    else if effectiveType tokens = TYPE_BOOLEAN then
      match mapIndex val "boolean" with
      | .bool b => if b then .emit "TRUE" else .emit "FALSE"
      | _ => .abort
    else if effectiveType tokens = TYPE_LONG then
      match mapIndex val "long" with
      | .int64 numeric => .emit (strconv.FormatInt numeric 10)
      | _ => .abort
    else if effectiveType tokens = TYPE_DOUBLE then
      match mapIndex val "double" with
      | .float64 numeric => .emit (FormatFloat numeric)
      | _ => .abort
    else .fail (fmt.Errorf "unknown type: %s" [effectiveType tokens])
  | _ => .abort

/-- The text that an iteration leaves in its entry of the row, when the
iteration completes: the empty string of the fresh slice, or the stored
text. -/
def FieldResult.text : FieldResult → Option String
  | .skip => some ""
  | .emit s => some s
  | _ => none

/-- Puts an entry in front of a returned row; an error or a panic is kept. -/
def Outcome.cons (s : String) : Outcome → Outcome
  | .ret (some vs) none => .ret (some (s :: vs)) none
  | o => o

/-- The projection of a record field by field: the row of the texts of the
fields in schema order, or the outcome of the first field that fails. -/
def projectAll (FormatFloat : Float64 → String) (mapped : List (String × Value)) :
    List SchemaField → Outcome
  | [] => .ret (some []) none
  | field :: rest =>
    match projectField FormatFloat field.Type_ (mapIndex mapped field.Name) with
    | .skip => (projectAll FormatFloat mapped rest).cons ""
    | .emit s => (projectAll FormatFloat mapped rest).cons s
    | .fail msg => .ret none (some msg)
    | .abort => .panic

/-- Go's `strings.Contains` on character lists: whether `substr` occurs in
`s`. -/
def containsAux (substr : List Char) : List Char → Bool
  | [] => substr.isPrefixOf []
  | c :: cs => substr.isPrefixOf (c :: cs) || containsAux substr cs

/-- Go's `strings.Contains`. -/
def strings.Contains (s substr : String) : Bool :=
  containsAux substr.data s.data

/-- Whether a value has the Go type that `readRow` asserts for an effective
type: `string`, `bool`, `int64` and `float64` for `string`, `boolean`, `long`
and `double`. -/
def matchesKind (typ : String) : Value → Bool
  | .string _ => typ = TYPE_STRING
  | .bool _ => typ = TYPE_BOOLEAN
  | .int64 _ => typ = TYPE_LONG
  | .float64 _ => typ = TYPE_DOUBLE
  | _ => false

/-- A looked-up value has the shape of a decoded union value for the effective
type `typ`: it is nil, or it is a mapping which, when `typ` is one of the four
rendered types, holds a value of the matching kind under the key `typ`. -/
def keyedByType (typ : String) : Value → Bool
  | .nil => true
  | .map val => !supported typ || matchesKind typ (mapIndex val typ)
  | _ => false

/-- Puts the entries of the earlier fields in front of a returned row; an
error or a panic is kept. -/
def Outcome.prepend (pre : List String) : Outcome → Outcome
  | .ret (some vs) none => .ret (some (pre ++ vs)) none
  | o => o

/-- A schema with a required, a nullable and a null-last field, used in the
examples. -/
def exampleSchema : Schema :=
  ⟨"r", "record", "", [⟨"id", ["long"]⟩, ⟨"note", ["null", "string"]⟩, ⟨"ok", ["boolean", "null"]⟩]⟩

/-- A record of `exampleSchema` as the container reader decodes it. -/
def exampleRecord : List (String × Value) :=
  [("id", .map [("long", .int64 1)]), ("note", .map [("string", .string "hi")]),
    ("ok", .map [("boolean", .bool true)])]

/-- The bindings of `exampleRecord` in another order, with one more key. -/
def exampleRecordShuffled : List (String × Value) :=
  [("extra", .int64 7), ("ok", .map [("boolean", .bool true)]),
    ("note", .map [("string", .string "hi")]), ("id", .map [("long", .int64 1)])]

/-- A stand-in for `strconv.FormatFloat` in the examples. -/
def exampleFormatFloat : Float64 → String := fun _ => "1.5E+00"

/-- Value of a decimal digit character. -/
def digitValue (c : Char) : Option Nat :=
  if c.isDigit then some (c.toNat - 48) else none

/-- Reads a run of decimal digits, most significant first, onto the
accumulator `acc`. -/
def parseDigits : List Char → Nat → Option Nat
  | [], acc => some acc
  | c :: cs, acc =>
    match digitValue c with
    | some d => parseDigits cs (acc * 10 + d)
    | none => none

/-- Reads a decimal integer in the 64-bit signed range: an optional sign, then
one or more decimal digits. -/
def parseDecimal (s : String) : Option Int :=
  let signed : Option Int :=
    match s.data with
    | [] => none
    | c :: cs =>
      if c = '-' then
        if cs = [] then none else (parseDigits cs 0).map (fun (m : Nat) => -(m : Int))
      else if c = '+' then
        if cs = [] then none else (parseDigits cs 0).map (fun (m : Nat) => (m : Int))
      else (parseDigits (c :: cs) 0).map (fun (m : Nat) => (m : Int))
  signed.bind (fun n => if -(2 : Int) ^ 63 ≤ n ∧ n < (2 : Int) ^ 63 then some n else none)

/-- A valid Avro schema whose field type is a plain type name rather than a
list of names: it does not deserialize into `Schema`. -/
def plainTypeSchema : String :=
  "\x7b\"type\":\"record\",\"name\":\"r\",\"fields\":[\x7b\"name\":\"id\",\"type\":\"long\"\x7d]\x7d"

/-- The result of `json.Unmarshal` on `plainTypeSchema`: the members that fit
are filled in, the `type` of the field is left nil, and the earliest type
mismatch is returned as the error. -/
def plainTypeUnmarshal : String → Schema × Option String := fun _ =>
  (⟨"r", "record", "", [⟨"id", []⟩]⟩,
    some "json: cannot unmarshal string into Go struct field SchemaField.fields.type of type []string")

/-! ## Binary64 values and their decimal rendering -/

/-- The bit pattern of a `float64` without its sign bit. -/
def Float64.magnitude (f : Float64) : Nat := f.bits % 2 ^ 63

/-- Whether the sign bit of a `float64` is set. -/
def Float64.signBit (f : Float64) : Bool := decide (2 ^ 63 ≤ f.bits % 2 ^ 64)

/-- The bit pattern of positive infinity, without the sign bit; the finite
values have a smaller magnitude and the NaNs a greater one. -/
def infBits : Nat := 0x7FF0000000000000

/-- Whether a `float64` is finite: neither an infinity nor a NaN. -/
def Float64.isFinite (f : Float64) : Bool := decide (f.magnitude < infBits)

/-- Whether a `float64` is a NaN. -/
def Float64.isNaN (f : Float64) : Bool := decide (infBits < f.magnitude)

/-- The absolute value of the `float64` with magnitude bits `b`, multiplied by
`2 ^ 1075`: the fraction field `b % 2 ^ 52` is scaled by the exponent field
`b / 2 ^ 52`, a subnormal value having no implicit leading bit. -/
def scaledBin (b : Nat) : Nat :=
  if b / 2 ^ 52 = 0 then 2 * (b % 2 ^ 52) else (2 ^ 52 + b % 2 ^ 52) * 2 ^ (b / 2 ^ 52)

/-- The absolute value of the `float64` with magnitude bits `b`, multiplied by
`10 ^ 1075`; it is an integer. -/
def scaledDec (b : Nat) : Nat := scaledBin b * 5 ^ 1075

/-- Numerator of the decimal `N * 10 ^ k` multiplied by `10 ^ 1075`, as a
fraction over `decDen k`. -/
def decNum (N : Nat) (k : Int) : Nat :=
  if 0 ≤ k + 1075 then N * 10 ^ (k + 1075).toNat else N

/-- Denominator of the decimal `N * 10 ^ k` multiplied by `10 ^ 1075`. -/
def decDen (k : Int) : Nat :=
  if 0 ≤ k + 1075 then 1 else 10 ^ (-(k + 1075)).toNat

/-- Whether the fraction `A / B`, in units of `10 ^ (-1075)`, lies above the
lower rounding boundary of the magnitude `b`: it is greater than the midpoint
between the values of `b - 1` and `b`, or equal to it with `b` even (round half
to even). Nothing lies below the boundary of zero. -/
def aboveLower (A B b : Nat) : Bool :=
  b = 0 ∨ (scaledDec (b - 1) + scaledDec b) * B < 2 * A ∨
    ((scaledDec (b - 1) + scaledDec b) * B = 2 * A ∧ b % 2 = 0)

/-- Bitwise search for the greatest magnitude whose lower rounding boundary
the fraction `A / B` reaches: bit `i - 1` is tried on top of `b`. -/
def roundSearch (A B : Nat) : Nat → Nat → Nat
  | 0, b => b
  | i + 1, b =>
    if aboveLower A B (b + 2 ^ i) then roundSearch A B i (b + 2 ^ i)
    else roundSearch A B i b

/-- The magnitude bits of the `float64` nearest to the decimal `N * 10 ^ k`,
ties going to the even fraction and values beyond the finite range to
infinity. -/
def roundNearestEven (N : Nat) (k : Int) : Nat :=
  min (roundSearch (decNum N k) (decDen k) 63 0) infBits

/-- Number of decimal digits of a natural number; zero has one digit. -/
def decimalLength (n : Nat) : Nat := (digitsRev 10 (n + 1) n).length

/-- Search for the shortest decimal that reads back as the magnitude `b`,
whose value is `W * 10 ^ (-1075)` with `L` decimal digits in `W`. At step `j`
the candidates are `W` cut after its first `L - j` digits and that number plus
one, both times `10 ^ (j - 1075)`; of those that read back as `b` the one
closer to `W` is taken (an exact tie going to the even digit), and with none the
search goes on with one digit more. All the digits of `W` give `W` itself. -/
def shortestSearch (b W L : Nat) : Nat → Nat × Int
  | 0 => (W, -1075)
  | j + 1 =>
    let p := 10 ^ (j + 1)
    let lo := W / p
    let k : Int := ((j + 1 : Nat) : Int) - 1075
    let hi : Nat × Int :=
      if lo + 1 = 10 ^ (L - (j + 1)) then (1, (L : Int) - 1075) else (lo + 1, k)
    let okLo : Bool := roundNearestEven lo k = b
    let okHi : Bool := roundNearestEven hi.1 hi.2 = b
    let up : Bool := p < 2 * (W % p) ∨ (p = 2 * (W % p) ∧ lo % 2 = 1)
    if okLo && okHi then (if up then hi else (lo, k))
    else if okLo then (lo, k)
    else if okHi then hi
    else shortestSearch b W L j

/-- The shortest decimal `N * 10 ^ k` that reads back as the finite magnitude
`b`; zero is `0 * 10 ^ 0`. -/
def shortestDecimal (b : Nat) : Nat × Int :=
  if b = 0 then (0, 0)
  else shortestSearch b (scaledDec b) (decimalLength (scaledDec b))
    (decimalLength (scaledDec b) - 1)

/-- The exponent part of the `%e` format: the marker, a sign, and at least
two digits. -/
def formatExponent (marker : Char) (x : Int) : List Char :=
  marker :: (if x < 0 then '-' else '+') ::
    (if x.natAbs < 10 then ['0', digitChar x.natAbs]
     else (digitsRev 10 (x.natAbs + 1) x.natAbs).reverse)

/-- The `%e` format of the decimal `N * 10 ^ k`: the first digit of `N`, a
point and the other digits when there are any, and the exponent of the first
digit. -/
def formatDigits (marker : Char) (N : Nat) (k : Int) : List Char :=
  match (digitsRev 10 (N + 1) N).reverse with
  | [] => []
  | d :: ds =>
    d :: ((if ds = [] then [] else '.' :: ds) ++ formatExponent marker (k + ds.length))

/-- Modelled from the spec: `strconv.FormatFloat` of the Go standard library,
which is not part of the repository sources, for the call of the program:
format `E` (or `e`, the marker being the format character), precision `-1` and
bit size 64; for other arguments the model gives the empty string. The spec
describes the result as scientific notation with the minimal number of
significant digits that reads back exactly and an uppercase exponent marker.
As in the library, a NaN is `NaN` and the infinities are `+Inf` and `-Inf`. -/
def strconv.FormatFloat (f : Float64) (fmt : Char) (prec : Int) (bitSize : Nat) : String :=
  if (fmt = 'E' ∨ fmt = 'e') ∧ prec = -1 ∧ bitSize = 64 then
    if f.isNaN then "NaN"
    else if f.magnitude = infBits then (if f.signBit then "-Inf" else "+Inf")
    else
      let d := shortestDecimal f.magnitude
      ⟨(if f.signBit then ['-'] else []) ++ formatDigits fmt d.1 d.2⟩
  else ""

/-- The call `strconv.FormatFloat(numeric, 'E', -1, 64)` of `readRow`. -/
def formatFloatE (numeric : Float64) : String := strconv.FormatFloat numeric 'E' (-1) 64

/-- Reads the exponent of a decimal floating-point numeral: an optional sign
and one or more digits. -/
def parseExponent (s : List Char) : Option Int :=
  match s with
  | [] => none
  | c :: cs =>
    if c = '-' then
      if cs = [] then none else (parseDigits cs 0).map (fun (m : Nat) => -(m : Int))
    else if c = '+' then
      if cs = [] then none else (parseDigits cs 0).map (fun (m : Nat) => (m : Int))
    else (parseDigits (c :: cs) 0).map (fun (m : Nat) => (m : Int))

/-- Reads an unsigned decimal floating-point numeral as `N * 10 ^ k`: digits
with an optional point among them, at least one digit, and an optional
exponent part. -/
def parseDecimalFloat (s : List Char) : Option (Nat × Int) :=
  let ip := s.takeWhile Char.isDigit
  let r1 := s.dropWhile Char.isDigit
  let fp := if r1.head? = some '.' then r1.tail.takeWhile Char.isDigit else []
  let r2 := if r1.head? = some '.' then r1.tail.dropWhile Char.isDigit else r1
  if ip ++ fp = [] then none
  else
    match parseDigits (ip ++ fp) 0 with
    | none => none
    | some N =>
      match r2 with
      | [] => some (N, -(fp.length : Int))
      | c :: r3 =>
        if c = 'e' ∨ c = 'E' then (parseExponent r3).map (fun x => (N, x - (fp.length : Int)))
        else none

/-- Modelled from the spec: `strconv.ParseFloat` of the Go standard library
for bit size 64, which the spec's reading-back law refers to: the result and
whether an error is returned. Decimal numerals are rounded to the nearest
`float64`, ties to even; `NaN`, `Inf` and `Infinity` are read without regard to
case, the infinities with an optional sign. Hexadecimal numerals are not
modelled and count as syntax errors. -/
def strconv.ParseFloat (s : String) : Float64 × Bool :=
  let lower := s.data.map Char.toLower
  if lower = "nan".data then (⟨0x7FF8000000000001⟩, false)
  else if lower = "inf".data ∨ lower = "+inf".data ∨ lower = "infinity".data ∨
      lower = "+infinity".data then (⟨infBits⟩, false)
  else if lower = "-inf".data ∨ lower = "-infinity".data then (⟨2 ^ 63 + infBits⟩, false)
  else
    let neg := s.data.head? = some '-'
    let body := if s.data.head? = some '-' ∨ s.data.head? = some '+' then s.data.tail else s.data
    match parseDecimalFloat body with
    | none => (⟨0⟩, true)
    | some d =>
      let b := roundNearestEven d.1 d.2
      (⟨if neg then 2 ^ 63 + b else b⟩, decide (b = infBits))

/-! ## The loop of `readRow`, field by field -/

theorem readRowLoop_cons (FormatFloat : Float64 → String) (mapped : List (String × Value))
    (field : SchemaField) (rest : List SchemaField) (i : Nat) (values : List String) :
    readRowLoop FormatFloat mapped (field :: rest) i values =
      match projectField FormatFloat field.Type_ (mapIndex mapped field.Name) with
      | .skip => readRowLoop FormatFloat mapped rest (i + 1) values
      | .emit s => readRowLoop FormatFloat mapped rest (i + 1) (values.set i s)
      | .fail msg => .ret none (some msg)
      | .abort => .panic := by
  rw [readRowLoop]
  simp only [projectField, effectiveType]
  cases mapIndex mapped field.Name with
  | map val =>
    simp only []
    split_ifs <;> (try rfl) <;> (split <;> (try rfl))
    all_goals (split_ifs <;> simp_all)
  | _ => rfl

theorem readRowLoop_eq (FormatFloat : Float64 → String) (mapped : List (String × Value))
    (fields : List SchemaField) (pre : List String) :
    readRowLoop FormatFloat mapped fields pre.length
        (pre ++ List.replicate fields.length "") =
      match projectAll FormatFloat mapped fields with
      | .ret (some vs) none => .ret (some (pre ++ vs)) none
      | o => o := by
  induction fields generalizing pre with
  | nil => simp [readRowLoop, projectAll]
  | cons field rest ih =>
    rw [readRowLoop_cons, projectAll]
    have hskip : pre ++ List.replicate (rest.length + 1) "" =
        (pre ++ [""]) ++ List.replicate rest.length "" := by
      simp [List.replicate_succ]
    have hset : ∀ s : String, (pre ++ List.replicate (rest.length + 1) "").set pre.length s =
        (pre ++ [s]) ++ List.replicate rest.length "" := by
      intro s
      simp [List.replicate_succ, List.set_append]
    have hlen : ∀ s : String, pre.length + 1 = (pre ++ [s]).length := by simp
    cases hp : projectField FormatFloat field.Type_ (mapIndex mapped field.Name) with
    | skip =>
      simp only [List.length_cons]
      rw [hskip, hlen "", ih]
      rcases projectAll FormatFloat mapped rest with ⟨_ | vs, _ | e⟩ | _ <;> simp [Outcome.cons]
    | emit s =>
      simp only [List.length_cons]
      rw [hset, hlen s, ih]
      rcases projectAll FormatFloat mapped rest with ⟨_ | vs, _ | e⟩ | _ <;> simp [Outcome.cons]
    | fail msg => rfl
    | abort => rfl

theorem readRow_eq_projectAll (FormatFloat : Float64 → String)
    (mapped : List (String × Value)) (schema : Schema) :
    readRow FormatFloat (.map mapped) schema = projectAll FormatFloat mapped schema.Fields := by
  have h := readRowLoop_eq FormatFloat mapped schema.Fields []
  simp only [List.length_nil, List.nil_append] at h
  rw [readRow, h]
  rcases projectAll FormatFloat mapped schema.Fields with ⟨_ | vs, _ | e⟩ | _ <;> rfl

/-! ## Consequences of the field-by-field form -/

theorem projectAll_row (FormatFloat : Float64 → String) (mapped : List (String × Value))
    (fields : List SchemaField) (values : List String)
    (h : projectAll FormatFloat mapped fields = .ret (some values) none) :
    values.length = fields.length ∧
      ∀ (i : Nat) (field : SchemaField), fields[i]? = some field →
        values[i]? =
          (projectField FormatFloat field.Type_ (mapIndex mapped field.Name)).text := by
  induction fields generalizing values with
  | nil =>
    simp [projectAll] at h
    subst h
    simp
  | cons f rest ih =>
    rw [projectAll] at h
    cases hp : projectField FormatFloat f.Type_ (mapIndex mapped f.Name) with
    | skip =>
      rw [hp] at h
      rcases hr : projectAll FormatFloat mapped rest with ⟨_ | vs, _ | e⟩ | _ <;>
        rw [hr] at h <;> simp [Outcome.cons] at h
      subst h
      obtain ⟨h1, h2⟩ := ih vs hr
      refine ⟨by simp [h1], ?_⟩
      intro i field hi
      cases i with
      | zero =>
        simp at hi
        subst hi
        simp [hp, FieldResult.text]
      | succ j =>
        simp at hi
        simpa using h2 j field hi
    | emit s =>
      rw [hp] at h
      rcases hr : projectAll FormatFloat mapped rest with ⟨_ | vs, _ | e⟩ | _ <;>
        rw [hr] at h <;> simp [Outcome.cons] at h
      subst h
      obtain ⟨h1, h2⟩ := ih vs hr
      refine ⟨by simp [h1], ?_⟩
      intro i field hi
      cases i with
      | zero =>
        simp at hi
        subst hi
        simp [hp, FieldResult.text]
      | succ j =>
        simp at hi
        simpa using h2 j field hi
    | fail msg => rw [hp] at h; simp at h
    | abort => rw [hp] at h; simp at h

theorem projectAll_congr (FormatFloat : Float64 → String) (m1 m2 : List (String × Value))
    (fields : List SchemaField)
    (h : ∀ f ∈ fields, mapIndex m1 f.Name = mapIndex m2 f.Name) :
    projectAll FormatFloat m1 fields = projectAll FormatFloat m2 fields := by
  induction fields with
  | nil => rfl
  | cons f rest ih =>
    rw [projectAll, projectAll, h f (List.mem_cons_self _ _),
      ih (fun g hg => h g (List.mem_cons_of_mem _ hg))]

theorem mapIndex_eq_of_mem (m : List (String × Value)) (hnd : (m.map Prod.fst).Nodup)
    (k : String) (v : Value) (hm : (k, v) ∈ m) : mapIndex m k = v := by
  induction m with
  | nil => simp at hm
  | cons p rest ih =>
    obtain ⟨k0, v0⟩ := p
    simp only [List.map_cons, List.nodup_cons] at hnd
    rw [mapIndex]
    rcases List.mem_cons.mp hm with heq | hin
    · cases heq; simp
    · have hne : k0 ≠ k := by
        intro hk
        subst hk
        exact hnd.1 (List.mem_map.mpr ⟨(k0, v), hin, rfl⟩)
      simp [hne, ih hnd.2 hin]

theorem mapIndex_eq_nil_of_not_mem (m : List (String × Value)) (k : String)
    (hk : k ∉ m.map Prod.fst) : mapIndex m k = .nil := by
  induction m with
  | nil => rfl
  | cons p rest ih =>
    obtain ⟨k0, v0⟩ := p
    simp only [List.map_cons, List.mem_cons, not_or] at hk
    rw [mapIndex]
    simp [Ne.symm hk.1, ih hk.2]

theorem mapIndex_mem_or_nil (m : List (String × Value)) (k : String) :
    (k, mapIndex m k) ∈ m ∨ (k ∉ m.map Prod.fst ∧ mapIndex m k = .nil) := by
  induction m with
  | nil => right; simp [mapIndex]
  | cons p rest ih =>
    obtain ⟨k0, v0⟩ := p
    rw [mapIndex]
    by_cases hk : k0 = k
    · subst hk; left; simp
    · rcases ih with h | ⟨h1, h2⟩
      · left; simp [hk, h]
      · right
        simp only [hk, if_false, h2, and_true]
        simp only [List.map_cons, List.mem_cons, not_or]
        exact ⟨Ne.symm hk, h1⟩

theorem mapIndex_perm (m1 m2 : List (String × Value)) (hp : m1.Perm m2)
    (hnd : (m1.map Prod.fst).Nodup) (k : String) : mapIndex m1 k = mapIndex m2 k := by
  have hnd2 : (m2.map Prod.fst).Nodup := (hp.map Prod.fst).nodup_iff.mp hnd
  rcases mapIndex_mem_or_nil m1 k with h | ⟨h1, h2⟩
  · exact (mapIndex_eq_of_mem m2 hnd2 k _ (hp.mem_iff.mp h)).symm
  · rw [h2, mapIndex_eq_nil_of_not_mem m2 k]
    intro hk
    exact h1 ((hp.map Prod.fst).mem_iff.mpr hk)

theorem columns_eq (schema : Schema) : columns schema = schema.Fields.map (fun f => f.Name) := by
  have h : ∀ (fields : List SchemaField) (acc : List String),
      fields.foldl (fun columns field => columns ++ [field.Name]) acc =
        acc ++ fields.map (fun f => f.Name) := by
    intro fields
    induction fields with
    | nil => simp
    | cons f rest ih => intro acc; simp [ih]
  simpa [columns] using h schema.Fields []

theorem scanLoop_stdout (FormatFloat : Float64 → String) (schema : Schema)
    (rows : List (Option Value)) (out : List (List String)) :
    ∃ written, (scanLoop FormatFloat schema rows out).stdout = out ++ written := by
  induction rows generalizing out with
  | nil => exact ⟨[], by simp [scanLoop]⟩
  | cons r rest ih =>
    cases r with
    | none => exact ⟨[], by simp [scanLoop]⟩
    | some row =>
      rw [scanLoop]
      rcases readRow FormatFloat row schema with ⟨vs, _ | e⟩ | _
      · obtain ⟨w, hw⟩ := ih (out ++ [vs.getD []])
        exact ⟨vs.getD [] :: w, by simp [hw]⟩
      · exact ⟨[], by simp⟩
      · exact ⟨[], by simp⟩

/-! ## Alignment of rows and header with the schema -/

/-- C1: when `readRow` returns a row for a map record, the row has one entry
per schema field and entry `i` is the text of the value bound to the name of
field `i`, rendered under that field's type list; the same row is returned for
every record that binds the schema's field names to the same values, in
particular for every reordering of a record with distinct keys; and the column
list built in `main` has one entry per field, entry `i` being the name of
field `i`, and is the first record that the row loop of `main` leaves on
standard output. -/
theorem readRow_aligned_with_schema (FormatFloat : Float64 → String) (schema : Schema)
    (mapped mapped2 : List (String × Value)) (values : List String)
    (h : readRow FormatFloat (.map mapped) schema = .ret (some values) none) :
    values.length = schema.Fields.length ∧
    (∀ (i : Nat) (field : SchemaField), schema.Fields[i]? = some field →
      values[i]? =
        (projectField FormatFloat field.Type_ (mapIndex mapped field.Name)).text) ∧
    ((∀ f ∈ schema.Fields, mapIndex mapped f.Name = mapIndex mapped2 f.Name) →
      readRow FormatFloat (.map mapped2) schema = .ret (some values) none) ∧
    (mapped.Perm mapped2 → (mapped.map Prod.fst).Nodup →
      readRow FormatFloat (.map mapped2) schema = .ret (some values) none) ∧
    (columns schema).length = schema.Fields.length ∧
    (∀ (i : Nat) (field : SchemaField), schema.Fields[i]? = some field →
      (columns schema)[i]? = some field.Name) ∧
    (∀ rows : List (Option Value),
      (scanLoop FormatFloat schema rows [columns schema]).stdout.head?
        = some (columns schema)) := by
  rw [readRow_eq_projectAll] at h
  obtain ⟨h1, h2⟩ := projectAll_row FormatFloat mapped schema.Fields values h
  refine ⟨h1, h2, ?_, ?_, ?_, ?_, ?_⟩
  · intro hagree
    rw [readRow_eq_projectAll, ← projectAll_congr FormatFloat mapped mapped2 _ hagree, h]
  · intro hperm hnd
    rw [readRow_eq_projectAll, ← projectAll_congr FormatFloat mapped mapped2 _
      (fun f _ => mapIndex_perm mapped mapped2 hperm hnd f.Name), h]
  · simp [columns_eq]
  · intro i field hi
    simp [columns_eq, hi]
  · intro rows
    obtain ⟨w, hw⟩ := scanLoop_stdout FormatFloat schema rows [columns schema]
    rw [hw]
    rfl

theorem readRow_aligned_with_schema_witness :
    readRow exampleFormatFloat (.map exampleRecord) exampleSchema
        = .ret (some ["1", "hi", "TRUE"]) none ∧
      readRow exampleFormatFloat (.map exampleRecordShuffled) exampleSchema
        = .ret (some ["1", "hi", "TRUE"]) none ∧
      (columns exampleSchema).length = exampleSchema.Fields.length := by
  have h := readRow_aligned_with_schema exampleFormatFloat exampleSchema exampleRecord
    exampleRecordShuffled ["1", "hi", "TRUE"] (by decide)
  refine ⟨by decide, h.2.2.1 ?_, h.2.2.2.2.1⟩
  intro f hf
  simp only [exampleSchema, List.mem_cons, List.mem_singleton, List.not_mem_nil, or_false] at hf
  rcases hf with rfl | rfl | rfl <;> rfl

/-! ## Null and absent fields -/

theorem projectAll_append (FormatFloat : Float64 → String) (mapped : List (String × Value))
    (pre rest : List SchemaField) :
    projectAll FormatFloat mapped (pre ++ rest) =
      match projectAll FormatFloat mapped pre with
      | .ret (some vs) none => (projectAll FormatFloat mapped rest).prepend vs
      | o => o := by
  induction pre with
  | nil =>
    simp only [List.nil_append, projectAll]
    rcases projectAll FormatFloat mapped rest with ⟨_ | vs, _ | e⟩ | _ <;> simp [Outcome.prepend]
  | cons f pre ih =>
    simp only [List.cons_append, projectAll, List.append_eq]
    rw [ih]
    generalize projectAll FormatFloat mapped pre = A
    generalize projectAll FormatFloat mapped rest = B
    cases projectField FormatFloat f.Type_ (mapIndex mapped f.Name) with
    | skip =>
      rcases A with ⟨_ | vs, _ | e⟩ | _ <;> try rfl
      rcases B with ⟨_ | ws, _ | e⟩ | _ <;> simp [Outcome.cons, Outcome.prepend]
    | emit s =>
      rcases A with ⟨_ | vs, _ | e⟩ | _ <;> try rfl
      rcases B with ⟨_ | ws, _ | e⟩ | _ <;> simp [Outcome.cons, Outcome.prepend]
    | fail msg => rfl
    | abort => rfl

theorem projectAll_all_nil (FormatFloat : Float64 → String) (mapped : List (String × Value))
    (fields : List SchemaField) (h : ∀ f ∈ fields, mapIndex mapped f.Name = .nil) :
    projectAll FormatFloat mapped fields = .ret (some (List.replicate fields.length "")) none := by
  induction fields with
  | nil => rfl
  | cons f rest ih =>
    rw [projectAll, h f (List.mem_cons_self _ _), ih (fun g hg => h g (List.mem_cons_of_mem _ hg))]
    simp [projectField, Outcome.cons, List.replicate_succ]

/-- C2: a field whose name the record does not bind, or binds to nil, is
skipped without any type dispatch, whatever its type list: the iteration for it
neither fails nor panics, `readRow` returns an error or panics with the field
exactly when it does without it, and in a returned row the field's entry is
the empty string. A record that leaves every schema field absent or nil gives a
row of as many empty strings as the schema has fields. -/
theorem readRow_null_or_absent (FormatFloat : Float64 → String)
    (mapped : List (String × Value)) (name type ns : String)
    (pre post : List SchemaField) (field : SchemaField)
    (h : field.Name ∉ mapped.map Prod.fst ∨ mapIndex mapped field.Name = .nil) :
    projectField FormatFloat field.Type_ (mapIndex mapped field.Name) = .skip ∧
    (∀ values, readRow FormatFloat (.map mapped) ⟨name, type, ns, pre ++ field :: post⟩
        = .ret (some values) none → values[pre.length]? = some "") ∧
    (∀ o, (∀ vs, o ≠ .ret (some vs) none) →
      (readRow FormatFloat (.map mapped) ⟨name, type, ns, pre ++ field :: post⟩ = o ↔
        readRow FormatFloat (.map mapped) ⟨name, type, ns, pre ++ post⟩ = o)) ∧
    (∀ schema : Schema,
      (∀ f ∈ schema.Fields, f.Name ∉ mapped.map Prod.fst ∨ mapIndex mapped f.Name = .nil) →
      readRow FormatFloat (.map mapped) schema
        = .ret (some (List.replicate schema.Fields.length "")) none) := by
  have hnil : ∀ f : SchemaField,
      (f.Name ∉ mapped.map Prod.fst ∨ mapIndex mapped f.Name = .nil) →
      mapIndex mapped f.Name = .nil := by
    intro f hf
    rcases hf with hf | hf
    · exact mapIndex_eq_nil_of_not_mem mapped f.Name hf
    · exact hf
  have hskip : projectField FormatFloat field.Type_ (mapIndex mapped field.Name) = .skip := by
    rw [hnil field h]; rfl
  refine ⟨hskip, ?_, ?_, ?_⟩
  · intro values hv
    rw [readRow_eq_projectAll] at hv
    have h2 := (projectAll_row FormatFloat mapped _ values hv).2 pre.length field
      (by rw [List.getElem?_append_right (le_refl _)]; simp)
    rw [h2, hskip]; rfl
  · intro o ho
    simp only [readRow_eq_projectAll, projectAll_append]
    rw [projectAll, hskip]
    generalize projectAll FormatFloat mapped pre = A
    generalize projectAll FormatFloat mapped post = B
    rcases A with ⟨_ | vs, _ | e⟩ | _ <;> try exact Iff.rfl
    rcases B with ⟨_ | ws, _ | e⟩ | _ <;> try exact Iff.rfl
    simp only [Outcome.cons, Outcome.prepend]
    constructor <;> intro hh <;> exact absurd hh.symm (ho _)
  · intro schema hs
    rw [readRow_eq_projectAll]
    exact projectAll_all_nil FormatFloat mapped schema.Fields (fun f hf => hnil f (hs f hf))

theorem readRow_null_or_absent_witness :
    mapIndex [("id", .map [("long", .int64 1)]), ("note", .nil)] "note" = .nil ∧
    projectField exampleFormatFloat ["string", "long"]
      (mapIndex [("id", .map [("long", .int64 1)]), ("note", .nil)] "note") = .skip ∧
    readRow exampleFormatFloat (.map [("other", .int64 1), ("note", .nil)]) exampleSchema
      = .ret (some ["", "", ""]) none := by
  have h := readRow_null_or_absent exampleFormatFloat
    [("id", .map [("long", .int64 1)]), ("note", .nil)] "r" "record" ""
    [⟨"id", ["long"]⟩] [] ⟨"note", ["string", "long"]⟩ (Or.inr rfl)
  have h2 := readRow_null_or_absent exampleFormatFloat
    [("other", .int64 1), ("note", .nil)] "r" "record" ""
    [] [] ⟨"note", []⟩ (Or.inr rfl)
  refine ⟨rfl, h.1, h2.2.2.2 exampleSchema ?_⟩
  intro f hf
  simp only [exampleSchema, List.mem_cons, List.mem_singleton, List.not_mem_nil, or_false] at hf
  rcases hf with rfl | rfl | rfl
  · left; decide
  · right; rfl
  · left; decide

/-! ## The effective type -/

theorem effectiveType_data (tokens : List String) :
    effectiveType tokens =
      ⟨replaceAux ['n', 'u', 'l', 'l'] [] 1 0 (strings.Join tokens "").data⟩ := by
  have h1 : ("null" : String) ≠ "" := by decide
  have h2 : ("null" : String).data = ['n', 'u', 'l', 'l'] := rfl
  have h3 : ("" : String).data = [] := rfl
  simp [effectiveType, strings.Replace, h1, h2, h3]

theorem replaceAux_zero (old new : List Char) (k : Nat) (s : List Char) :
    replaceAux old new 0 k s = s.drop k := by
  induction s generalizing k with
  | nil => simp [replaceAux]
  | cons c cs ih =>
    cases k with
    | zero => simp [replaceAux]
    | succ k => simp [replaceAux, ih]

theorem replaceAux_absent (old new : List Char) (n : Nat) (s : List Char)
    (h : containsAux old s = false) : replaceAux old new (n + 1) 0 s = s := by
  induction s with
  | nil => simp [replaceAux]
  | cons c cs ih =>
    simp only [containsAux, Bool.or_eq_false_iff] at h
    simp [replaceAux, h.1, ih h.2]

theorem null_not_at_start (c : Char) (a b : List Char)
    (h1 : List.isPrefixOf ['n', 'u', 'l', 'l'] (c :: a) = false) :
    List.isPrefixOf ['n', 'u', 'l', 'l'] (c :: (a ++ 'n' :: 'u' :: 'l' :: 'l' :: b)) = false := by
  rcases a with _ | ⟨d, _ | ⟨e, _ | ⟨f, g⟩⟩⟩
  · simp [List.isPrefixOf]
  · simp [List.isPrefixOf]
  · simp [List.isPrefixOf]
  · simpa [List.isPrefixOf] using h1

theorem replaceAux_null_first (new a b : List Char)
    (h : containsAux ['n', 'u', 'l', 'l'] a = false) :
    replaceAux ['n', 'u', 'l', 'l'] new 1 0 (a ++ 'n' :: 'u' :: 'l' :: 'l' :: b) = a ++ new ++ b := by
  induction a with
  | nil => simp [replaceAux, List.isPrefixOf, replaceAux_zero]
  | cons c a ih =>
    simp only [containsAux, Bool.or_eq_false_iff] at h
    have hp := null_not_at_start c a b h.1
    rw [List.cons_append, replaceAux, hp]
    simp [ih h.2]

theorem join_cons_data (t : String) (ts : List String) :
    (strings.Join (t :: ts) "").data = t.data ++ (strings.Join ts "").data := by
  have h3 : ("" : String).data = [] := rfl
  cases ts with
  | nil => simp [strings.Join, h3]
  | cons t2 rest => simp [strings.Join, String.data_append, h3]

theorem join_append_data (a b : List String) :
    (strings.Join (a ++ b) "").data = (strings.Join a "").data ++ (strings.Join b "").data := by
  have h3 : ("" : String).data = [] := rfl
  induction a with
  | nil => simp [strings.Join, h3]
  | cons t a ih => simp [join_cons_data, ih]

theorem tokens_split (tokens : List String) :
    (∃ pre post, tokens = pre ++ "null" :: post ∧
        tokens.takeWhile (fun t => t ≠ "null") = pre ∧ ∀ t ∈ pre, t ≠ "null") ∨
      (tokens.takeWhile (fun t => t ≠ "null") = tokens ∧ ∀ t ∈ tokens, t ≠ "null") := by
  induction tokens with
  | nil => right; simp
  | cons t ts ih =>
    have hcons : t ≠ "null" → (t :: ts).takeWhile (fun t => t ≠ "null")
        = t :: ts.takeWhile (fun t => t ≠ "null") := by
      intro ht
      have hd : decide (t ≠ "null") = true := by simpa using ht
      simp only [List.takeWhile_cons, hd, if_true]
    by_cases ht : t = "null"
    · left
      exact ⟨[], ts, by simp [ht], by simp [ht], by simp⟩
    · rcases ih with ⟨pre, post, h1, h2, h3⟩ | ⟨h1, h2⟩
      · left
        refine ⟨t :: pre, post, by simp [h1], by rw [hcons ht, h2], ?_⟩
        intro u hu
        rcases List.mem_cons.mp hu with rfl | hu
        · exact ht
        · exact h3 u hu
      · right
        refine ⟨by rw [hcons ht, h1], ?_⟩
        intro u hu
        rcases List.mem_cons.mp hu with rfl | hu
        · exact ht
        · exact h2 u hu

theorem filter_not_null (ts : List String) (h : ∀ t ∈ ts, t ≠ "null") :
    ts.filter (fun t => t ≠ "null") = ts := by
  apply List.filter_eq_self.mpr
  intro t ht
  simpa using h t ht

/-- C3 (as amended): for a type list with at most one token `null` in which
the text `null` does not occur inside the concatenation of the tokens that
precede that token (of all the tokens, when none is `null`), the effective
type that `readRow` dispatches on is the concatenation of the tokens with the
token `null` removed. It is `T` for `["null", T]` whatever `T` is, and `T` for
`[T]` and `[T, "null"]` when `T` does not contain the text `null`. -/
theorem effectiveType_eq_spec (tokens : List String)
    (h1 : tokens.count "null" ≤ 1)
    (h2 : strings.Contains (strings.Join (tokens.takeWhile (fun t => t ≠ "null")) "") "null"
      = false) :
    effectiveType tokens = specEffectiveType tokens ∧
    (∀ T : String, effectiveType ["null", T] = T) ∧
    (∀ T : String, strings.Contains T "null" = false →
      effectiveType [T] = T ∧ effectiveType [T, "null"] = T) := by
  have hn : ("null" : String).data = ['n', 'u', 'l', 'l'] := rfl
  have h3 : ("" : String).data = [] := rfl
  refine ⟨?_, ?_, ?_⟩
  · rw [effectiveType_data, specEffectiveType]
    apply String.ext
    simp only [strings.Contains, hn] at h2
    rcases tokens_split tokens with ⟨pre, post, e1, e2, e3⟩ | ⟨e1, e2⟩
    · rw [e2] at h2
      have hpost : ∀ t ∈ post, t ≠ "null" := by
        intro t ht hnull
        subst hnull
        rw [e1] at h1
        simp only [List.count_append, List.count_cons_self] at h1
        have h0 : List.count "null" post = 0 := by omega
        exact List.count_eq_zero.mp h0 ht
      have hf : tokens.filter (fun t => t ≠ "null") = pre ++ post := by
        rw [e1, List.filter_append, filter_not_null pre e3,
          List.filter_cons_of_neg (by simp), filter_not_null post hpost]
      rw [hf, e1, join_append_data, join_cons_data, hn, join_append_data]
      simpa using replaceAux_null_first [] _ _ h2
    · rw [e1] at h2
      rw [filter_not_null tokens e2]
      exact replaceAux_absent _ _ 0 _ h2
  · intro T
    rw [effectiveType_data]
    apply String.ext
    rw [join_cons_data, join_cons_data, hn]
    simpa [strings.Join, h3] using replaceAux_null_first [] [] T.data rfl
  · intro T hT
    simp only [strings.Contains, hn] at hT
    constructor
    · rw [effectiveType_data]
      apply String.ext
      simpa [strings.Join] using replaceAux_absent _ [] 0 _ hT
    · rw [effectiveType_data]
      apply String.ext
      rw [join_cons_data, join_cons_data, hn]
      simpa [strings.Join, h3] using replaceAux_null_first [] T.data [] hT

theorem effectiveType_eq_spec_witness :
    effectiveType ["string", "null"] = "string" ∧
    specEffectiveType ["string", "null"] = "string" ∧
    effectiveType ["null", "nullable"] = "nullable" := by
  have h := effectiveType_eq_spec ["string", "null"] (by decide) (by decide)
  exact ⟨by decide, by decide, h.2.1 "nullable"⟩

/-- C3 (counterexample): the type list `["nullable"]` has no token equal to
`null`, so the concatenation of its tokens with the token `null` removed is
`nullable`, but `readRow` dispatches on `able`. -/
theorem effectiveType_nullable_counterexample :
    List.count "null" ["nullable"] ≤ 1 ∧
    effectiveType ["nullable"] = "able" ∧
    specEffectiveType ["nullable"] = "nullable" ∧
    effectiveType ["nullable"] ≠ specEffectiveType ["nullable"] := by
  decide

/-! ## Type dispatch -/

theorem errorf_unknown (typ : String) :
    fmt.Errorf "unknown type: %s" [typ] = "unknown type: " ++ typ := by
  apply String.ext
  simp [fmt.Errorf, sprintfAux]

theorem supported_iff (typ : String) :
    supported typ = true ↔
      typ = TYPE_STRING ∨ typ = TYPE_BOOLEAN ∨ typ = TYPE_LONG ∨ typ = TYPE_DOUBLE := by
  simp [supported, or_assoc]

theorem projectField_unknown (FormatFloat : Float64 → String) (tokens : List String)
    (val : List (String × Value)) (h : supported (effectiveType tokens) = false) :
    projectField FormatFloat tokens (.map val) =
      .fail ("unknown type: " ++ effectiveType tokens) := by
  have h1 : ¬ (supported (effectiveType tokens) = true) := by simp [h]
  rw [supported_iff] at h1
  simp only [not_or] at h1
  simp [projectField, h1.1, h1.2.1, h1.2.2.1, h1.2.2.2, errorf_unknown]

theorem projectField_keyed (FormatFloat : Float64 → String) (tokens : List String)
    (rawVal : Value) (hk : keyedByType (effectiveType tokens) rawVal = true)
    (hs : supported (effectiveType tokens) = true) :
    ∃ s, (projectField FormatFloat tokens rawVal).text = some s := by
  have e1 : TYPE_BOOLEAN ≠ TYPE_STRING := by decide
  have e2 : TYPE_LONG ≠ TYPE_STRING := by decide
  have e3 : TYPE_LONG ≠ TYPE_BOOLEAN := by decide
  have e4 : TYPE_DOUBLE ≠ TYPE_STRING := by decide
  have e5 : TYPE_DOUBLE ≠ TYPE_BOOLEAN := by decide
  have e6 : TYPE_DOUBLE ≠ TYPE_LONG := by decide
  cases rawVal with
  | nil => exact ⟨"", rfl⟩
  | map val =>
    simp only [keyedByType, hs, Bool.not_true, Bool.false_or] at hk
    rcases (supported_iff _).mp hs with h | h | h | h
    · rw [h] at hk
      have hx : mapIndex val "string" = mapIndex val TYPE_STRING := rfl
      simp only [projectField, h, if_true]
      rw [hx]
      cases hv : mapIndex val TYPE_STRING <;> rw [hv] at hk <;>
        simp_all [matchesKind, FieldResult.text]
    · rw [h] at hk
      have hx : mapIndex val "boolean" = mapIndex val TYPE_BOOLEAN := rfl
      simp only [projectField, h, if_true, e1, if_false]
      rw [hx]
      cases hv : mapIndex val TYPE_BOOLEAN <;> rw [hv] at hk <;>
        simp_all [matchesKind, FieldResult.text]
      split_ifs <;> simp
    · rw [h] at hk
      have hx : mapIndex val "long" = mapIndex val TYPE_LONG := rfl
      simp only [projectField, h, if_true, e2, e3, if_false]
      rw [hx]
      cases hv : mapIndex val TYPE_LONG <;> rw [hv] at hk <;>
        simp_all [matchesKind, FieldResult.text]
    · rw [h] at hk
      have hx : mapIndex val "double" = mapIndex val TYPE_DOUBLE := rfl
      simp only [projectField, h, if_true, e4, e5, e6, if_false]
      rw [hx]
      cases hv : mapIndex val TYPE_DOUBLE <;> rw [hv] at hk <;>
        simp_all [matchesKind, FieldResult.text]
  | _ => simp [keyedByType] at hk

theorem projectField_mismatch (FormatFloat : Float64 → String) (tokens : List String)
    (tag : String) (v : Value) (hs : supported (effectiveType tokens) = true)
    (htag : tag ≠ effectiveType tokens) :
    projectField FormatFloat tokens (.map [(tag, v)]) = .abort := by
  have e1 : TYPE_BOOLEAN ≠ TYPE_STRING := by decide
  have e2 : TYPE_LONG ≠ TYPE_STRING := by decide
  have e3 : TYPE_LONG ≠ TYPE_BOOLEAN := by decide
  have e4 : TYPE_DOUBLE ≠ TYPE_STRING := by decide
  have e5 : TYPE_DOUBLE ≠ TYPE_BOOLEAN := by decide
  have e6 : TYPE_DOUBLE ≠ TYPE_LONG := by decide
  rcases (supported_iff _).mp hs with h | h | h | h
  · rw [h] at htag
    have hx : mapIndex [(tag, v)] "string" = .nil := by
      simp only [mapIndex]; exact if_neg htag
    simp only [projectField, h, if_true, hx]
  · rw [h] at htag
    have hx : mapIndex [(tag, v)] "boolean" = .nil := by
      simp only [mapIndex]; exact if_neg htag
    simp only [projectField, h, if_true, e1, if_false, hx]
  · rw [h] at htag
    have hx : mapIndex [(tag, v)] "long" = .nil := by
      simp only [mapIndex]; exact if_neg htag
    simp only [projectField, h, if_true, e2, e3, if_false, hx]
  · rw [h] at htag
    have hx : mapIndex [(tag, v)] "double" = .nil := by
      simp only [mapIndex]; exact if_neg htag
    simp only [projectField, h, if_true, e4, e5, e6, if_false, hx]

theorem projectAll_first_unknown (FormatFloat : Float64 → String)
    (mapped : List (String × Value)) (fields : List SchemaField)
    (hshape : ∀ f ∈ fields, keyedByType (effectiveType f.Type_) (mapIndex mapped f.Name) = true) :
    (∀ f, fields.find? (fun f => !(mapIndex mapped f.Name).isNil &&
        !supported (effectiveType f.Type_)) = some f →
      projectAll FormatFloat mapped fields =
        .ret none (some ("unknown type: " ++ effectiveType f.Type_))) ∧
    (fields.find? (fun f => !(mapIndex mapped f.Name).isNil &&
        !supported (effectiveType f.Type_)) = none →
      ∃ values, projectAll FormatFloat mapped fields = .ret (some values) none) := by
  induction fields with
  | nil => simp [projectAll]
  | cons g rest ih =>
    have hg := hshape g (List.mem_cons_self _ _)
    obtain ⟨ih1, ih2⟩ := ih (fun f hf => hshape f (List.mem_cons_of_mem _ hf))
    have hcons : ∀ s : String,
        (∀ f, rest.find? (fun f => !(mapIndex mapped f.Name).isNil &&
            !supported (effectiveType f.Type_)) = some f →
          (projectAll FormatFloat mapped rest).cons s =
            .ret none (some ("unknown type: " ++ effectiveType f.Type_))) ∧
        (rest.find? (fun f => !(mapIndex mapped f.Name).isNil &&
            !supported (effectiveType f.Type_)) = none →
          ∃ values, (projectAll FormatFloat mapped rest).cons s = .ret (some values) none) := by
      intro s
      constructor
      · intro f hf
        rw [ih1 f hf]; rfl
      · intro hn
        obtain ⟨vs, hvs⟩ := ih2 hn
        exact ⟨s :: vs, by rw [hvs]; rfl⟩
    by_cases hsup : supported (effectiveType g.Type_) = true
    · obtain ⟨s, hs⟩ := projectField_keyed FormatFloat g.Type_ _ hg hsup
      have hfind : (g :: rest).find? (fun f => !(mapIndex mapped f.Name).isNil &&
          !supported (effectiveType f.Type_)) = rest.find? (fun f =>
            !(mapIndex mapped f.Name).isNil && !supported (effectiveType f.Type_)) := by
        simp [List.find?_cons, hsup]
      rw [hfind, projectAll]
      cases hp : projectField FormatFloat g.Type_ (mapIndex mapped g.Name) with
      | skip => exact hcons ""
      | emit t => exact hcons t
      | fail msg => rw [hp] at hs; simp [FieldResult.text] at hs
      | abort => rw [hp] at hs; simp [FieldResult.text] at hs
    · have hsup2 : supported (effectiveType g.Type_) = false := by simpa using hsup
      cases hv : mapIndex mapped g.Name with
      | nil =>
        have hfind : (g :: rest).find? (fun f => !(mapIndex mapped f.Name).isNil &&
            !supported (effectiveType f.Type_)) = rest.find? (fun f =>
              !(mapIndex mapped f.Name).isNil && !supported (effectiveType f.Type_)) := by
          simp [List.find?_cons, hv, Value.isNil]
        rw [hfind, projectAll, hv]
        exact hcons ""
      | map val =>
        have hfind : (g :: rest).find? (fun f => !(mapIndex mapped f.Name).isNil &&
            !supported (effectiveType f.Type_)) = some g := by
          simp [List.find?_cons, hv, Value.isNil, hsup2]
        rw [hfind, projectAll, hv, projectField_unknown FormatFloat g.Type_ val hsup2]
        simp
      | _ => rw [hv] at hg; simp [keyedByType] at hg

/-- C4 (as amended): for a schema and a map record in which every non-nil
value of a schema field is a mapping and, when the field's effective type is
one of `string`, `boolean`, `long`, `double`, holds a value of the matching
kind under the key equal to that type, `readRow` returns an error exactly when
some schema field with a non-nil value has an effective type outside those
four; the returned row is then nil and the message is `unknown type: `
followed by the effective type of the first such field in schema order, and
the row loop of `main` writes nothing for the record and ends the run with
`os.Exit(-1)`; otherwise a row is returned. -/
theorem readRow_unknown_type (FormatFloat : Float64 → String) (schema : Schema)
    (mapped : List (String × Value))
    (hshape : ∀ f ∈ schema.Fields,
      keyedByType (effectiveType f.Type_) (mapIndex mapped f.Name) = true) :
    ((∃ vs e, readRow FormatFloat (.map mapped) schema = .ret vs (some e)) ↔
      ∃ f ∈ schema.Fields, (mapIndex mapped f.Name).isNil = false ∧
        supported (effectiveType f.Type_) = false) ∧
    (∀ f, schema.Fields.find? (fun f => !(mapIndex mapped f.Name).isNil &&
        !supported (effectiveType f.Type_)) = some f →
      readRow FormatFloat (.map mapped) schema =
        .ret none (some ("unknown type: " ++ effectiveType f.Type_))) ∧
    (∀ f, schema.Fields.find? (fun f => !(mapIndex mapped f.Name).isNil &&
        !supported (effectiveType f.Type_)) = some f →
      ∀ (rest : List (Option Value)) (out : List (List String)),
        scanLoop FormatFloat schema (some (.map mapped) :: rest) out = ⟨out, .exit (-1)⟩) ∧
    (schema.Fields.find? (fun f => !(mapIndex mapped f.Name).isNil &&
        !supported (effectiveType f.Type_)) = none →
      ∃ values, readRow FormatFloat (.map mapped) schema = .ret (some values) none) := by
  obtain ⟨h1, h2⟩ := projectAll_first_unknown FormatFloat mapped schema.Fields hshape
  have hscan : ∀ f, schema.Fields.find? (fun f => !(mapIndex mapped f.Name).isNil &&
      !supported (effectiveType f.Type_)) = some f →
      ∀ (rest : List (Option Value)) (out : List (List String)),
        scanLoop FormatFloat schema (some (.map mapped) :: rest) out = ⟨out, .exit (-1)⟩ := by
    intro f hf rest out
    rw [scanLoop, readRow_eq_projectAll, h1 f hf]
  rw [readRow_eq_projectAll]
  refine ⟨?_, h1, hscan, h2⟩
  constructor
  · rintro ⟨vs, e, he⟩
    cases hf : schema.Fields.find? (fun f => !(mapIndex mapped f.Name).isNil &&
        !supported (effectiveType f.Type_)) with
    | none =>
      obtain ⟨values, hv⟩ := h2 hf
      rw [hv] at he
      simp at he
    | some f =>
      have hp := List.find?_some hf
      simp only [Bool.and_eq_true, Bool.not_eq_true'] at hp
      exact ⟨f, List.mem_of_find?_eq_some hf, hp.1, hp.2⟩
  · rintro ⟨f, hmem, hnil, hsup⟩
    cases hf : schema.Fields.find? (fun f => !(mapIndex mapped f.Name).isNil &&
        !supported (effectiveType f.Type_)) with
    | none =>
      have := List.find?_eq_none.mp hf f hmem
      simp [hnil, hsup] at this
    | some g => exact ⟨none, _, h1 g hf⟩

theorem readRow_unknown_type_witness :
    readRow exampleFormatFloat
        (.map [("id", .map [("long", .int64 1)]), ("n", .map [("int", .other "int32")]),
          ("b", .map [("bytes", .other "[]byte")])])
        ⟨"r", "record", "", [⟨"id", ["long"]⟩, ⟨"n", ["null", "int"]⟩, ⟨"b", ["bytes"]⟩]⟩
      = .ret none (some "unknown type: int") := by
  have h := readRow_unknown_type exampleFormatFloat
    ⟨"r", "record", "", [⟨"id", ["long"]⟩, ⟨"n", ["null", "int"]⟩, ⟨"b", ["bytes"]⟩]⟩
    [("id", .map [("long", .int64 1)]), ("n", .map [("int", .other "int32")]),
      ("b", .map [("bytes", .other "[]byte")])] (by decide)
  exact h.2.1 ⟨"n", ["null", "int"]⟩ (by decide)

/-- C4 (counterexample): a field whose type list is empty has the unsupported
effective type `""`; when the record binds its name to a value that is not a
mapping (here an `int64`), the record satisfies the claim's condition on the
fields with a supported type, a field with a non-nil value has an unsupported
type, and yet `readRow` does not return an error: it panics. -/
theorem readRow_unknown_type_counterexample :
    (∀ f ∈ [(⟨"id", []⟩ : SchemaField)], supported (effectiveType f.Type_) = true →
      keyedByType (effectiveType f.Type_) (mapIndex [("id", .int64 1)] f.Name) = true) ∧
    (∃ f ∈ [(⟨"id", []⟩ : SchemaField)], (mapIndex [("id", .int64 1)] f.Name).isNil = false ∧
      supported (effectiveType f.Type_) = false) ∧
    readRow exampleFormatFloat (.map [("id", .int64 1)]) ⟨"r", "record", "", [⟨"id", []⟩]⟩
      = .panic := by
  decide

theorem projectAll_after_row (FormatFloat : Float64 → String)
    (mapped : List (String × Value)) (pre post : List SchemaField) (field : SchemaField)
    (rowvals : List String)
    (hpre : projectAll FormatFloat mapped pre = .ret (some rowvals) none) :
    (∀ msg, projectField FormatFloat field.Type_ (mapIndex mapped field.Name) = .fail msg →
      projectAll FormatFloat mapped (pre ++ field :: post) = .ret none (some msg)) ∧
    (projectField FormatFloat field.Type_ (mapIndex mapped field.Name) = .abort →
      projectAll FormatFloat mapped (pre ++ field :: post) = .panic) := by
  constructor
  · intro msg h
    rw [projectAll_append, hpre, projectAll, h]; rfl
  · intro h
    rw [projectAll_append, hpre, projectAll, h]; rfl

/-- C5 (as amended): for a field whose type list has two or more members,
whose concatenation does not contain the text `null` and is not one of
`string`, `boolean`, `long`, `double`, and a record in which the field's value
is a mapping (all earlier fields projecting successfully), the effective type
is the concatenation of the tokens and `readRow` returns a nil row and the
error `unknown type: ` followed by that concatenation. -/
theorem readRow_two_members (FormatFloat : Float64 → String)
    (mapped : List (String × Value)) (name type ns : String)
    (pre post : List SchemaField) (field : SchemaField)
    (val : List (String × Value)) (rowvals : List String)
    (_h2 : 2 ≤ field.Type_.length)
    (hnull : strings.Contains (strings.Join field.Type_ "") "null" = false)
    (hsup : supported (strings.Join field.Type_ "") = false)
    (hval : mapIndex mapped field.Name = .map val)
    (hpre : readRow FormatFloat (.map mapped) ⟨name, type, ns, pre⟩
      = .ret (some rowvals) none) :
    effectiveType field.Type_ = strings.Join field.Type_ "" ∧
    readRow FormatFloat (.map mapped) ⟨name, type, ns, pre ++ field :: post⟩ =
      .ret none (some ("unknown type: " ++ strings.Join field.Type_ "")) := by
  have hn : ("null" : String).data = ['n', 'u', 'l', 'l'] := rfl
  have heff : effectiveType field.Type_ = strings.Join field.Type_ "" := by
    rw [effectiveType_data]
    apply String.ext
    simp only [strings.Contains, hn] at hnull
    exact replaceAux_absent _ [] 0 _ hnull
  refine ⟨heff, ?_⟩
  rw [readRow_eq_projectAll] at hpre ⊢
  have hfail : projectField FormatFloat field.Type_ (mapIndex mapped field.Name) =
      .fail ("unknown type: " ++ strings.Join field.Type_ "") := by
    rw [hval, projectField_unknown FormatFloat field.Type_ val (by rw [heff]; exact hsup), heff]
  exact (projectAll_after_row FormatFloat mapped pre post field rowvals hpre).1 _ hfail

theorem readRow_two_members_witness :
    readRow exampleFormatFloat
        (.map [("id", .map [("long", .int64 1)]), ("u", .map [("long", .int64 2)])])
        ⟨"r", "record", "", [⟨"id", ["long"]⟩] ++ ⟨"u", ["string", "long"]⟩ :: []⟩
      = .ret none (some ("unknown type: " ++ strings.Join ["string", "long"] "")) ∧
    "unknown type: " ++ strings.Join ["string", "long"] "" = "unknown type: stringlong" :=
  ⟨(readRow_two_members exampleFormatFloat
      [("id", .map [("long", .int64 1)]), ("u", .map [("long", .int64 2)])]
      "r" "record" "" [⟨"id", ["long"]⟩] [] ⟨"u", ["string", "long"]⟩
      [("long", .int64 2)] ["1"] (by decide) (by decide) (by decide) rfl (by decide)).2,
    by decide⟩

/-- C5 (counterexample): three fields with two type tokens, none of them the
token `null`, and a non-nil value. For `["str", "ing"]` the concatenation is
the supported type `string` and `readRow` returns a row; for
`["nullx", "string"]` the error names `xstring`, which does not contain the
concatenation `nullxstring`; for `["string", "long"]` with a value that is not
a mapping `readRow` panics instead of returning an error. -/
theorem readRow_two_members_counterexample :
    readRow exampleFormatFloat (.map [("f", .map [("string", .string "hi")])])
        ⟨"r", "record", "", [⟨"f", ["str", "ing"]⟩]⟩
      = .ret (some ["hi"]) none ∧
    readRow exampleFormatFloat (.map [("f", .map [("string", .string "hi")])])
        ⟨"r", "record", "", [⟨"f", ["nullx", "string"]⟩]⟩
      = .ret none (some "unknown type: xstring") ∧
    strings.Contains "unknown type: xstring" (strings.Join ["nullx", "string"] "") = false ∧
    readRow exampleFormatFloat (.map [("f", .string "hi")])
        ⟨"r", "record", "", [⟨"f", ["string", "long"]⟩]⟩
      = .panic := by
  decide

/-- C7: for a field whose effective type is one of `string`, `boolean`,
`long`, `double` and whose value is a single-entry mapping keyed by a tag
different from that type (all earlier fields projecting successfully),
`readRow` panics: it returns neither a row nor an error. Conversely, when every
non-nil value of a schema field is a mapping that, for such an effective type,
holds a value of the matching kind under the key equal to the type, `readRow`
does not panic. -/
theorem readRow_tag_mismatch (FormatFloat : Float64 → String)
    (mapped : List (String × Value)) (name type ns : String)
    (pre post : List SchemaField) (field : SchemaField)
    (tag : String) (v : Value) (rowvals : List String)
    (hsup : supported (effectiveType field.Type_) = true)
    (hval : mapIndex mapped field.Name = .map [(tag, v)])
    (htag : tag ≠ effectiveType field.Type_)
    (hpre : readRow FormatFloat (.map mapped) ⟨name, type, ns, pre⟩
      = .ret (some rowvals) none) :
    readRow FormatFloat (.map mapped) ⟨name, type, ns, pre ++ field :: post⟩ = .panic ∧
    (∀ (schema : Schema) (record : List (String × Value)),
      (∀ f ∈ schema.Fields,
        keyedByType (effectiveType f.Type_) (mapIndex record f.Name) = true) →
      readRow FormatFloat (.map record) schema ≠ .panic) := by
  constructor
  · rw [readRow_eq_projectAll] at hpre ⊢
    apply (projectAll_after_row FormatFloat mapped pre post field rowvals hpre).2
    rw [hval]
    exact projectField_mismatch FormatFloat field.Type_ tag v hsup htag
  · intro schema record hshape hpanic
    obtain ⟨h1, h2⟩ := projectAll_first_unknown FormatFloat record schema.Fields hshape
    rw [readRow_eq_projectAll] at hpanic
    cases hf : schema.Fields.find? (fun f => !(mapIndex record f.Name).isNil &&
        !supported (effectiveType f.Type_)) with
    | none =>
      obtain ⟨values, hv⟩ := h2 hf
      rw [hv] at hpanic
      simp at hpanic
    | some f =>
      rw [h1 f hf] at hpanic
      simp at hpanic

theorem readRow_tag_mismatch_witness :
    readRow exampleFormatFloat
        (.map [("id", .map [("long", .int64 1)]), ("note", .map [("long", .int64 2)])])
        ⟨"r", "record", "", [⟨"id", ["long"]⟩] ++ ⟨"note", ["null", "string"]⟩ :: []⟩
      = .panic ∧
    readRow exampleFormatFloat (.map exampleRecord) exampleSchema
      = .ret (some ["1", "hi", "TRUE"]) none :=
  ⟨(readRow_tag_mismatch exampleFormatFloat
      [("id", .map [("long", .int64 1)]), ("note", .map [("long", .int64 2)])]
      "r" "record" "" [⟨"id", ["long"]⟩] [] ⟨"note", ["null", "string"]⟩
      "long" (.int64 2) ["1"] (by decide) rfl (by decide) (by decide)).1,
    by decide⟩

/-- C9: when `readRow` returns a row, the entry of a field with effective type
`boolean` is `TRUE` exactly when the field's value is a mapping holding `true`
under the key `boolean`, `FALSE` exactly when it holds `false` there, and the
empty string exactly when the record binds the field's name to nil or not at
all; the entry is never any other string. -/
theorem readRow_boolean (FormatFloat : Float64 → String) (schema : Schema)
    (mapped : List (String × Value)) (values : List String) (i : Nat) (field : SchemaField)
    (h : readRow FormatFloat (.map mapped) schema = .ret (some values) none)
    (hi : schema.Fields[i]? = some field)
    (ht : effectiveType field.Type_ = TYPE_BOOLEAN) :
    ∃ s, values[i]? = some s ∧
      (s = "TRUE" ↔ ∃ val, mapIndex mapped field.Name = .map val ∧
        mapIndex val "boolean" = .bool true) ∧
      (s = "FALSE" ↔ ∃ val, mapIndex mapped field.Name = .map val ∧
        mapIndex val "boolean" = .bool false) ∧
      (s = "" ↔ mapIndex mapped field.Name = .nil) ∧
      (s = "TRUE" ∨ s = "FALSE" ∨ s = "") := by
  have e1 : TYPE_BOOLEAN ≠ TYPE_STRING := by decide
  have d1 : ("TRUE" : String) ≠ "FALSE" := by decide
  have d2 : ("TRUE" : String) ≠ "" := by decide
  have d3 : ("FALSE" : String) ≠ "" := by decide
  rw [readRow_eq_projectAll] at h
  have hrow := (projectAll_row FormatFloat mapped schema.Fields values h).2 i field hi
  cases hv : mapIndex mapped field.Name with
  | nil =>
    rw [hv] at hrow
    refine ⟨"", hrow, ?_, ?_, ?_, ?_⟩ <;> simp [d2.symm, d3.symm]
  | map val =>
    rw [hv] at hrow
    simp only [projectField, ht, e1, if_false, if_true] at hrow
    cases hb : mapIndex val "boolean" with
    | bool b =>
      rw [hb] at hrow
      cases b with
      | true =>
        refine ⟨"TRUE", by simpa [FieldResult.text] using hrow, ?_, ?_, ?_, ?_⟩
        · simp [hb]
        · simp [hb, d1]
        · simp [d2]
        · simp
      | false =>
        refine ⟨"FALSE", by simpa [FieldResult.text] using hrow, ?_, ?_, ?_, ?_⟩
        · simp [hb, d1.symm]
        · simp [hb]
        · simp [d3]
        · simp
    | _ =>
      rw [hb] at hrow
      have hlen := (projectAll_row FormatFloat mapped schema.Fields values h).1
      have hlt : i < values.length := by
        rw [hlen]
        exact (List.getElem?_eq_some_iff.mp hi).1
      rw [List.getElem?_eq_getElem hlt] at hrow
      simp [FieldResult.text] at hrow
  | _ =>
    rw [hv] at hrow
    have hlen := (projectAll_row FormatFloat mapped schema.Fields values h).1
    have hlt : i < values.length := by
      rw [hlen]
      exact (List.getElem?_eq_some_iff.mp hi).1
    rw [List.getElem?_eq_getElem hlt] at hrow
    simp [projectField, FieldResult.text] at hrow

theorem readRow_boolean_witness :
    readRow exampleFormatFloat (.map exampleRecord) exampleSchema
      = .ret (some ["1", "hi", "TRUE"]) none ∧
    ∃ s, ["1", "hi", "TRUE"][2]? = some s ∧ (s = "TRUE" ∨ s = "FALSE" ∨ s = "") := by
  obtain ⟨s, h1, _, _, _, h5⟩ := readRow_boolean exampleFormatFloat exampleSchema exampleRecord
    ["1", "hi", "TRUE"] 2 ⟨"ok", ["boolean", "null"]⟩ (by decide) (by decide) (by decide)
  exact ⟨by decide, s, h1, h5⟩

/-! ## Decimal rendering of `long` values -/

theorem digitChar_isDigit (d : Nat) (h : d < 10) : (digitChar d).isDigit = true := by
  interval_cases d <;> decide

theorem digitValue_digitChar (d : Nat) (h : d < 10) : digitValue (digitChar d) = some d := by
  interval_cases d <;> decide

theorem digitChar_ne_zero (d : Nat) (h0 : 0 < d) (h : d < 10) : digitChar d ≠ '0' := by
  interval_cases d <;> decide

theorem parseDigits_append (xs : List Char) (c : Char) (acc : Nat) :
    parseDigits (xs ++ [c]) acc =
      (parseDigits xs acc).bind (fun a => (digitValue c).map (fun d => a * 10 + d)) := by
  induction xs generalizing acc with
  | nil =>
    simp only [List.nil_append, parseDigits]
    cases digitValue c <;> simp [parseDigits]
  | cons x xs ih =>
    simp only [List.cons_append, parseDigits]
    cases digitValue x with
    | none => simp
    | some d => simp [ih]

theorem digitsRev_small (fuel u : Nat) (hu : u < 10) :
    digitsRev 10 (fuel + 1) u ≠ [] ∧
    (∀ c ∈ digitsRev 10 (fuel + 1) u, c.isDigit = true) ∧
    parseDigits (digitsRev 10 (fuel + 1) u).reverse 0 = some u ∧
    (u = 0 → digitsRev 10 (fuel + 1) u = ['0']) ∧
    (u ≠ 0 → ∃ k, 0 < k ∧ k < 10 ∧
      (digitsRev 10 (fuel + 1) u).reverse.head? = some (digitChar k)) := by
  rw [digitsRev]
  simp only [hu, if_true]
  refine ⟨by simp, ?_, ?_, ?_, ?_⟩
  · intro c hc
    simp only [List.mem_singleton] at hc
    subst hc
    exact digitChar_isDigit u hu
  · simp [parseDigits, digitValue_digitChar u hu]
  · intro h0
    subst h0
    rfl
  · intro h0
    exact ⟨u, by omega, hu, by simp⟩

theorem digitsRev_spec (fuel u : Nat) (h : u < 10 ^ (fuel + 1)) :
    digitsRev 10 (fuel + 1) u ≠ [] ∧
    (∀ c ∈ digitsRev 10 (fuel + 1) u, c.isDigit = true) ∧
    parseDigits (digitsRev 10 (fuel + 1) u).reverse 0 = some u ∧
    (u = 0 → digitsRev 10 (fuel + 1) u = ['0']) ∧
    (u ≠ 0 → ∃ k, 0 < k ∧ k < 10 ∧
      (digitsRev 10 (fuel + 1) u).reverse.head? = some (digitChar k)) := by
  induction fuel generalizing u with
  | zero => exact digitsRev_small 0 u (by simpa using h)
  | succ fuel ih =>
    by_cases hu : u < 10
    · exact digitsRev_small (fuel + 1) u hu
    · rw [digitsRev]
      simp only [hu, if_false]
      have hdiv : u / 10 < 10 ^ (fuel + 1) := by
        apply Nat.div_lt_of_lt_mul
        rw [pow_succ] at h
        omega
      have hmod : u % 10 < 10 := Nat.mod_lt _ (by norm_num)
      obtain ⟨i1, i2, i3, _, i5⟩ := ih (u / 10) hdiv
      refine ⟨by simp, ?_, ?_, ?_, ?_⟩
      · intro c hc
        rcases List.mem_cons.mp hc with rfl | hc
        · exact digitChar_isDigit _ hmod
        · exact i2 c hc
      · rw [List.reverse_cons, parseDigits_append, i3, digitValue_digitChar _ hmod]
        simp only [Option.some_bind, Option.map_some']
        congr 1
        omega
      · intro h0
        omega
      · intro _
        obtain ⟨k, k1, k2, k3⟩ := i5 (by omega)
        refine ⟨k, k1, k2, ?_⟩
        rw [List.reverse_cons, List.head?_append_of_ne_nil _ (by simpa using i1), k3]

theorem formatInt_data (n : Int) (hlo : -(2 : Int) ^ 63 ≤ n) (hhi : n < (2 : Int) ^ 63) :
    (strconv.FormatInt n 10).data =
      if n < 0 then '-' :: (digitsRev 10 64 n.natAbs).reverse
      else (digitsRev 10 64 n.natAbs).reverse := by
  have hmag : (if n < 0 then (2 ^ 64 - (n % (2 : Int) ^ 64).toNat) % 2 ^ 64
      else (n % (2 : Int) ^ 64).toNat) = n.natAbs := by
    norm_num at hlo hhi ⊢
    split_ifs <;> omega
  simp only [strconv.FormatInt, hmag]

theorem parseDecimal_formatInt (n : Int) (hlo : -(2 : Int) ^ 63 ≤ n) (hhi : n < (2 : Int) ^ 63) :
    parseDecimal (strconv.FormatInt n 10) = some n := by
  have hbound : n.natAbs < 10 ^ (63 + 1) := by
    have : n.natAbs ≤ 2 ^ 63 := by
      norm_num at hlo hhi ⊢
      omega
    exact lt_of_le_of_lt this (by norm_num)
  obtain ⟨d1, d2, d3, _, _⟩ := digitsRev_spec 63 n.natAbs hbound
  have hrange : (-(2 : Int) ^ 63 ≤ n ∧ n < (2 : Int) ^ 63) := ⟨hlo, hhi⟩
  rw [parseDecimal, formatInt_data n hlo hhi]
  by_cases hneg : n < 0
  · have hne : (digitsRev 10 64 n.natAbs).reverse ≠ [] := by simpa using d1
    have hval : -((n.natAbs : Nat) : Int) = n := by
      rw [Int.ofNat_natAbs_of_nonpos (le_of_lt hneg), neg_neg]
    simp only [hneg, if_true, hne, if_false, d3, Option.map_some', hval, Option.some_bind,
      hrange, and_self]
  · have hval : ((n.natAbs : Nat) : Int) = n := Int.natAbs_of_nonneg (not_lt.mp hneg)
    simp only [hneg, if_false]
    cases hds : (digitsRev 10 64 n.natAbs).reverse with
    | nil => exact absurd (List.reverse_eq_nil_iff.mp hds) d1
    | cons c cs =>
      have hc : c.isDigit = true := d2 c (by
        have : c ∈ (digitsRev 10 64 n.natAbs).reverse := by rw [hds]; simp
        simpa using this)
      have hm : c ≠ '-' := by
        intro hh; subst hh; revert hc; decide
      have hp : c ≠ '+' := by
        intro hh; subst hh; revert hc; decide
      rw [hds] at d3
      simp only [hm, hp, if_false, d3, Option.map_some', hval, Option.some_bind, hrange,
        and_self, if_true]

/-- C8: for a 64-bit signed integer `n`, a field of effective type `long`
whose value holds `n` under the key `long` is rendered as `FormatInt n 10`,
which is the canonical base-10 text of `n`: a minus sign exactly when `n` is
negative, followed by one or more decimal digits and nothing else, with a
leading zero only for the single digit of zero; reading the text back as a
decimal integer gives `n`. -/
theorem readRow_long_decimal (FormatFloat : Float64 → String) (schema : Schema)
    (mapped val : List (String × Value)) (values : List String) (i : Nat)
    (field : SchemaField) (n : Int)
    (hlo : -(2 : Int) ^ 63 ≤ n) (hhi : n < (2 : Int) ^ 63)
    (h : readRow FormatFloat (.map mapped) schema = .ret (some values) none)
    (hi : schema.Fields[i]? = some field)
    (ht : effectiveType field.Type_ = TYPE_LONG)
    (hval : mapIndex mapped field.Name = .map val)
    (hv : mapIndex val "long" = .int64 n) :
    values[i]? = some (strconv.FormatInt n 10) ∧
    readRow FormatFloat (.map [(field.Name, .map val)]) ⟨"", "", "", [field]⟩
      = .ret (some [strconv.FormatInt n 10]) none ∧
    (∃ ds : List Char,
      (strconv.FormatInt n 10).data = (if n < 0 then '-' :: ds else ds) ∧
      ds ≠ [] ∧ (∀ c ∈ ds, c.isDigit = true) ∧
      (ds.head? = some '0' → ds = ['0'] ∧ n = 0)) ∧
    parseDecimal (strconv.FormatInt n 10) = some n := by
  have e2 : TYPE_LONG ≠ TYPE_STRING := by decide
  have e3 : TYPE_LONG ≠ TYPE_BOOLEAN := by decide
  have hfield : projectField FormatFloat field.Type_ (.map val) =
      .emit (strconv.FormatInt n 10) := by
    simp only [projectField, ht, e2, e3, if_false, if_true, hv]
  refine ⟨?_, ?_, ?_, parseDecimal_formatInt n hlo hhi⟩
  · rw [readRow_eq_projectAll] at h
    rw [(projectAll_row FormatFloat mapped schema.Fields values h).2 i field hi, hval, hfield]
    rfl
  · rw [readRow_eq_projectAll]
    have hm : mapIndex [(field.Name, Value.map val)] field.Name = .map val := by
      simp [mapIndex]
    simp only [projectAll, hm, hfield, Outcome.cons]
  · have hbound : n.natAbs < 10 ^ (63 + 1) := by
      have : n.natAbs ≤ 2 ^ 63 := by
        norm_num at hlo hhi ⊢
        omega
      exact lt_of_le_of_lt this (by norm_num)
    obtain ⟨d1, d2, _, d4, d5⟩ := digitsRev_spec 63 n.natAbs hbound
    refine ⟨(digitsRev 10 64 n.natAbs).reverse, formatInt_data n hlo hhi, by simpa using d1,
      fun c hc => d2 c (by simpa using hc), ?_⟩
    intro hz
    by_cases h0 : n.natAbs = 0
    · rw [d4 h0]
      exact ⟨rfl, Int.natAbs_eq_zero.mp h0⟩
    · obtain ⟨k, k1, k2, k3⟩ := d5 h0
      rw [k3] at hz
      exact absurd (Option.some.inj hz) (digitChar_ne_zero k k1 k2)

theorem readRow_long_decimal_witness :
    readRow exampleFormatFloat
        (.map [("id", .map [("long", .int64 (-9223372036854775808))])])
        ⟨"", "", "", [⟨"id", ["null", "long"]⟩]⟩
      = .ret (some ["-9223372036854775808"]) none ∧
    parseDecimal (strconv.FormatInt (-9223372036854775808) 10)
      = some (-9223372036854775808) ∧
    strconv.FormatInt 9223372036854775807 10 = "9223372036854775807" ∧
    strconv.FormatInt 0 10 = "0" ∧ strconv.FormatInt (-42) 10 = "-42" :=
  ⟨by decide,
    (readRow_long_decimal exampleFormatFloat ⟨"", "", "", [⟨"id", ["null", "long"]⟩]⟩
      [("id", .map [("long", .int64 (-9223372036854775808))])]
      [("long", .int64 (-9223372036854775808))] ["-9223372036854775808"] 0
      ⟨"id", ["null", "long"]⟩ (-9223372036854775808) (by decide) (by decide) (by decide)
      (by decide) (by decide) rfl rfl).2.2.2,
    by decide, by decide, by decide⟩

/-! ## Schema loading in `main` -/

/-- C6 (the code at the failing input): `main` never looks at the error of
`json.Unmarshal`, so its run is the same as with a nil error. For a container
whose schema does not deserialize into `Schema`, the header row is written
from the partly filled schema; with no records the run then ends normally
with status 0, and with a record `readRow` panics after the header has been
written. -/
theorem main_ignores_schema_error :
    (∀ (File : Type) (FormatFloat : Float64 → String)
        (Unmarshal : String → Schema × Option String) (Open : String → Option File)
        (NewOCFReader : File → Option OCFReader) (Args : List String),
      main FormatFloat Unmarshal Open NewOCFReader Args =
        main FormatFloat (fun raw => ((Unmarshal raw).1, none)) Open NewOCFReader Args) ∧
    (plainTypeUnmarshal plainTypeSchema).2.isSome = true ∧
    main exampleFormatFloat plainTypeUnmarshal (fun _ => some ())
        (fun _ => some ⟨plainTypeSchema, []⟩) ["avro", "in.avro"]
      = ⟨[["id"]], .returned⟩ ∧
    Termination.status .returned = 0 ∧
    main exampleFormatFloat plainTypeUnmarshal (fun _ => some ())
        (fun _ => some ⟨plainTypeSchema, [some (.map [("id", .int64 1)])]⟩) ["avro", "in.avro"]
      = ⟨[["id"]], .panicked⟩ := by
  refine ⟨?_, by decide, by decide, by decide, by decide⟩
  intro File FormatFloat Unmarshal Open NewOCFReader Args
  rfl

/-! ## Ordering of binary64 magnitudes -/

theorem scaledBin_lt_succ (b : Nat) : scaledBin b < scaledBin (b + 1) := by
  have hdm : 2 ^ 52 * (b / 2 ^ 52) + b % 2 ^ 52 = b := Nat.div_add_mod b (2 ^ 52)
  have hm : b % 2 ^ 52 < 2 ^ 52 := Nat.mod_lt _ (by norm_num)
  by_cases hc : b % 2 ^ 52 + 1 < 2 ^ 52
  · have h1 : (b + 1) / 2 ^ 52 = b / 2 ^ 52 := by omega
    have h2 : (b + 1) % 2 ^ 52 = b % 2 ^ 52 + 1 := by omega
    simp only [scaledBin, h1, h2]
    split_ifs with h0
    · omega
    · apply Nat.mul_lt_mul_of_pos_right (by omega) (by positivity)
  · have h1 : (b + 1) / 2 ^ 52 = b / 2 ^ 52 + 1 := by omega
    have h2 : (b + 1) % 2 ^ 52 = 0 := by omega
    have h3 : b % 2 ^ 52 = 2 ^ 52 - 1 := by omega
    unfold scaledBin
    rw [h1, h2, h3, if_neg (Nat.succ_ne_zero _)]
    by_cases h0 : b / 2 ^ 52 = 0
    · rw [if_pos h0, h0]
      norm_num
    · rw [if_neg h0]
      have hp : 0 < 2 ^ (b / 2 ^ 52) := by positivity
      have e : 2 ^ (b / 2 ^ 52 + 1) = 2 * 2 ^ (b / 2 ^ 52) := pow_succ' 2 _
      rw [e]
      generalize 2 ^ (b / 2 ^ 52) = X at hp ⊢
      omega

theorem scaledDec_lt_succ (b : Nat) : scaledDec b < scaledDec (b + 1) := by
  unfold scaledDec
  exact Nat.mul_lt_mul_of_pos_right (scaledBin_lt_succ b) (by positivity)

theorem scaledDec_strictMono : StrictMono scaledDec :=
  strictMono_nat_of_lt_succ scaledDec_lt_succ

theorem scaledDec_pos (b : Nat) (h : 0 < b) : 0 < scaledDec b :=
  lt_of_le_of_lt (Nat.zero_le _) (scaledDec_strictMono (show 0 < b from h))

/-! ## Rounding to the nearest magnitude -/

theorem aboveLower_iff (A B b : Nat) :
    aboveLower A B b = true ↔
      b = 0 ∨ (scaledDec (b - 1) + scaledDec b) * B < 2 * A ∨
        ((scaledDec (b - 1) + scaledDec b) * B = 2 * A ∧ b % 2 = 0) := by
  simp [aboveLower]

theorem boundary_lt (b : Nat) (hb : 0 < b) :
    scaledDec (b - 1) + scaledDec b < scaledDec (b + 1 - 1) + scaledDec (b + 1) := by
  have h1 : scaledDec (b - 1) < scaledDec b := scaledDec_strictMono (by omega)
  have h2 : scaledDec b < scaledDec (b + 1) := scaledDec_lt_succ b
  simp only [Nat.add_sub_cancel]
  omega

theorem aboveLower_of_succ (A B b : Nat) (hB : 0 < B) (h : aboveLower A B (b + 1) = true) :
    aboveLower A B b = true := by
  rw [aboveLower_iff] at h ⊢
  by_cases hb : b = 0
  · exact Or.inl hb
  · right; left
    have hlt := Nat.mul_lt_mul_of_pos_right (boundary_lt b (Nat.pos_of_ne_zero hb)) hB
    rcases h with h | h | h
    · omega
    · exact lt_trans hlt h
    · exact lt_of_lt_of_eq hlt h.1

theorem aboveLower_antitone (A B : Nat) (hB : 0 < B) (b c : Nat) (hbc : b ≤ c)
    (h : aboveLower A B c = true) : aboveLower A B b = true := by
  induction c with
  | zero =>
    have : b = 0 := by omega
    subst this
    exact h
  | succ c ih =>
    by_cases hb : b = c + 1
    · subst hb; exact h
    · exact ih (by omega) (aboveLower_of_succ A B c hB h)

theorem roundSearch_spec (A B top : Nat) (i b : Nat)
    (hb : aboveLower A B b = true)
    (hnext : b + 2 ^ i < top → aboveLower A B (b + 2 ^ i) = false) :
    aboveLower A B (roundSearch A B i b) = true ∧
      (roundSearch A B i b + 1 < top → aboveLower A B (roundSearch A B i b + 1) = false) := by
  induction i generalizing b with
  | zero => exact ⟨hb, by simpa [roundSearch] using hnext⟩
  | succ i ih =>
    rw [roundSearch]
    by_cases hc : aboveLower A B (b + 2 ^ i) = true
    · rw [if_pos hc]
      apply ih (b + 2 ^ i) hc
      intro hlt
      have e : b + 2 ^ i + 2 ^ i = b + 2 ^ (i + 1) := by rw [pow_succ]; omega
      rw [e] at hlt ⊢
      exact hnext hlt
    · rw [if_neg hc]
      apply ih b hb
      intro _
      simpa using hc

theorem roundSearch_unique (A B : Nat) (hB : 0 < B) (d : Nat) (hd : d + 1 < 2 ^ 63)
    (h1 : aboveLower A B d = true) (h2 : aboveLower A B (d + 1) = false) :
    roundSearch A B 63 0 = d := by
  obtain ⟨r1, r2⟩ := roundSearch_spec A B (2 ^ 63) 63 0 (by simp [aboveLower])
    (by intro h; omega)
  rcases Nat.lt_trichotomy (roundSearch A B 63 0) d with hlt | heq | hgt
  · have h3 := r2 (by omega)
    have h4 := aboveLower_antitone A B hB (roundSearch A B 63 0 + 1) d (by omega) h1
    rw [h3] at h4
    exact absurd h4 (by simp)
  · exact heq
  · have h4 := aboveLower_antitone A B hB (d + 1) (roundSearch A B 63 0) (by omega) r1
    rw [h2] at h4
    exact absurd h4 (by simp)

theorem roundSearch_interval (A B d : Nat) (hd : d + 1 < 2 ^ 63)
    (h : roundSearch A B 63 0 = d) :
    aboveLower A B d = true ∧ aboveLower A B (d + 1) = false := by
  obtain ⟨r1, r2⟩ := roundSearch_spec A B (2 ^ 63) 63 0 (by simp [aboveLower])
    (by intro h; omega)
  rw [h] at r1 r2
  exact ⟨r1, r2 hd⟩

theorem decDen_pos (k : Int) : 0 < decDen k := by
  unfold decDen
  split_ifs
  · exact Nat.one_pos
  · positivity

theorem roundNearestEven_eq_iff (N : Nat) (k : Int) (d : Nat) (hd : d < infBits) :
    roundNearestEven N k = d ↔
      (aboveLower (decNum N k) (decDen k) d = true ∧
        aboveLower (decNum N k) (decDen k) (d + 1) = false) := by
  have hd2 : d + 1 < 2 ^ 63 := by
    unfold infBits at hd
    norm_num at hd ⊢
    omega
  constructor
  · intro h
    apply roundSearch_interval _ _ d hd2
    unfold roundNearestEven at h
    rcases Nat.le_total (roundSearch (decNum N k) (decDen k) 63 0) infBits with hle | hle
    · rwa [Nat.min_eq_left hle] at h
    · rw [Nat.min_eq_right hle] at h
      omega
  · rintro ⟨h1, h2⟩
    unfold roundNearestEven
    rw [roundSearch_unique _ _ (decDen_pos k) d hd2 h1 h2]
    exact Nat.min_eq_left (le_of_lt hd)

theorem aboveLower_mono (A1 B1 A2 B2 b : Nat) (hB1 : 0 < B1) (hB2 : 0 < B2)
    (hle : A1 * B2 ≤ A2 * B1) (h : aboveLower A1 B1 b = true) :
    aboveLower A2 B2 b = true := by
  rw [aboveLower_iff] at h ⊢
  rcases h with h | h | h
  · exact Or.inl h
  · right; left
    have h3 : (scaledDec (b - 1) + scaledDec b) * B2 * B1 < 2 * A2 * B1 := by
      calc (scaledDec (b - 1) + scaledDec b) * B2 * B1
          = (scaledDec (b - 1) + scaledDec b) * B1 * B2 := by ring
        _ < 2 * A1 * B2 := Nat.mul_lt_mul_of_pos_right h hB2
        _ = 2 * (A1 * B2) := by ring
        _ ≤ 2 * (A2 * B1) := Nat.mul_le_mul_left _ hle
        _ = 2 * A2 * B1 := by ring
    exact Nat.lt_of_mul_lt_mul_right h3
  · right
    have h3 : (scaledDec (b - 1) + scaledDec b) * B2 * B1 ≤ 2 * A2 * B1 := by
      calc (scaledDec (b - 1) + scaledDec b) * B2 * B1
          = (scaledDec (b - 1) + scaledDec b) * B1 * B2 := by ring
        _ = 2 * A1 * B2 := by rw [h.1]
        _ = 2 * (A1 * B2) := by ring
        _ ≤ 2 * (A2 * B1) := Nat.mul_le_mul_left _ hle
        _ = 2 * A2 * B1 := by ring
    have h4 := Nat.le_of_mul_le_mul_right h3 hB1
    rcases Nat.lt_or_eq_of_le h4 with h5 | h5
    · exact Or.inl h5
    · exact Or.inr ⟨h5, h.2⟩

/-- Convexity of a rounding interval: a fraction between two fractions that
round to the magnitude `d` rounds to `d`. -/
theorem interval_convex (A1 B1 A2 B2 A3 B3 d : Nat)
    (hB1 : 0 < B1) (hB2 : 0 < B2) (hB3 : 0 < B3)
    (h12 : A1 * B2 ≤ A2 * B1) (h23 : A2 * B3 ≤ A3 * B2)
    (hlo : aboveLower A1 B1 d = true) (hhi : aboveLower A3 B3 (d + 1) = false) :
    aboveLower A2 B2 d = true ∧ aboveLower A2 B2 (d + 1) = false := by
  refine ⟨aboveLower_mono A1 B1 A2 B2 d hB1 hB2 h12 hlo, ?_⟩
  by_contra hc
  have hc2 : aboveLower A2 B2 (d + 1) = true := by simpa using hc
  have := aboveLower_mono A2 B2 A3 B3 (d + 1) hB2 hB3 h23 hc2
  rw [hhi] at this
  exact absurd this (by simp)

/-- The exact value of a magnitude rounds to it. -/
theorem exact_interval (d : Nat) :
    aboveLower (scaledDec d) 1 d = true ∧ aboveLower (scaledDec d) 1 (d + 1) = false := by
  constructor
  · rw [aboveLower_iff]
    by_cases hd : d = 0
    · exact Or.inl hd
    · right; left
      have : scaledDec (d - 1) < scaledDec d := scaledDec_strictMono (by omega)
      omega
  · have h1 : scaledDec d < scaledDec (d + 1) := scaledDec_lt_succ d
    by_contra hc
    have hc2 : aboveLower (scaledDec d) 1 (d + 1) = true := by simpa using hc
    rw [aboveLower_iff] at hc2
    simp only [Nat.add_sub_cancel] at hc2
    omega

/-! ## Number of decimal digits -/

theorem digitsRev_length (fuel u : Nat) (h : u < 10 ^ (fuel + 1)) :
    1 ≤ (digitsRev 10 (fuel + 1) u).length ∧
    u < 10 ^ (digitsRev 10 (fuel + 1) u).length ∧
    (0 < u → 10 ^ ((digitsRev 10 (fuel + 1) u).length - 1) ≤ u) := by
  induction fuel generalizing u with
  | zero =>
    have hu : u < 10 := by simpa using h
    rw [digitsRev]
    simp only [hu, if_true, List.length_singleton]
    exact ⟨le_refl _, by simpa using hu, fun h0 => by simpa using h0⟩
  | succ fuel ih =>
    rw [digitsRev]
    by_cases hu : u < 10
    · simp only [hu, if_true, List.length_singleton]
      exact ⟨le_refl _, by simpa using hu, fun h0 => by simpa using h0⟩
    · simp only [hu, if_false, List.length_cons]
      have hdiv : u / 10 < 10 ^ (fuel + 1) := by
        apply Nat.div_lt_of_lt_mul
        rw [pow_succ] at h
        omega
      obtain ⟨i1, i2, i3⟩ := ih (u / 10) hdiv
      refine ⟨by omega, ?_, ?_⟩
      · rw [pow_succ]
        omega
      · intro _
        have h3 := i3 (by omega)
        simp only [Nat.add_sub_cancel]
        have e : (digitsRev 10 (fuel + 1) (u / 10)).length =
            ((digitsRev 10 (fuel + 1) (u / 10)).length - 1) + 1 := by omega
        rw [e, pow_succ]
        omega

theorem lt_ten_pow_succ (n : Nat) : n < 10 ^ (n + 1) :=
  lt_of_lt_of_le (Nat.lt_pow_self (by norm_num) n) (Nat.pow_le_pow_right (by norm_num) (by omega))

theorem decimalLength_spec (n : Nat) :
    1 ≤ decimalLength n ∧ n < 10 ^ decimalLength n ∧
      (0 < n → 10 ^ (decimalLength n - 1) ≤ n) :=
  digitsRev_length n n (lt_ten_pow_succ n)

theorem decimalLength_eq (n m : Nat) (hm : 1 ≤ m) (h1 : 10 ^ (m - 1) ≤ n) (h2 : n < 10 ^ m) :
    decimalLength n = m := by
  obtain ⟨d1, d2, d3⟩ := decimalLength_spec n
  have hn : 0 < n := lt_of_lt_of_le (by positivity) h1
  have d4 := d3 hn
  have a1 : m - 1 < decimalLength n :=
    (Nat.pow_lt_pow_iff_right (by norm_num : 1 < 10)).mp (lt_of_le_of_lt h1 d2)
  have a2 : decimalLength n - 1 < m :=
    (Nat.pow_lt_pow_iff_right (by norm_num : 1 < 10)).mp (lt_of_le_of_lt d4 h2)
  omega

theorem lt_pow_of_decimalLength_lt (n m : Nat) (h : decimalLength n < m) : n < 10 ^ (m - 1) := by
  obtain ⟨_, d2, _⟩ := decimalLength_spec n
  exact lt_of_lt_of_le d2 (Nat.pow_le_pow_right (by norm_num) (by omega))

/-! ## The shortest decimal -/

theorem decNum_nat (N j : Nat) : decNum N ((j : Int) - 1075) = N * 10 ^ j ∧
    decDen ((j : Int) - 1075) = 1 := by
  have h : (0 : Int) ≤ (j : Int) - 1075 + 1075 := by omega
  have e : ((j : Int) - 1075 + 1075).toNat = j := by omega
  simp only [decNum, decDen, h, if_true, e, and_self]

theorem roundNearestEven_zero (k : Int) : roundNearestEven 0 k = 0 := by
  rw [roundNearestEven_eq_iff 0 k 0 (by decide)]
  have hA : decNum 0 k = 0 := by
    unfold decNum
    split_ifs <;> simp
  rw [hA]
  constructor
  · simp [aboveLower]
  · have hp : 0 < scaledDec 1 := scaledDec_pos 1 Nat.one_pos
    have hB := decDen_pos k
    have hpos : 0 < (scaledDec 0 + scaledDec 1) * decDen k :=
      Nat.mul_pos (by omega) hB
    by_contra hc
    have hc2 : aboveLower 0 (decDen k) (0 + 1) = true := by simpa using hc
    rw [aboveLower_iff] at hc2
    simp only [Nat.add_sub_cancel] at hc2
    omega

/-- Of the decimals with at most `n` digits, the two next to `W` at the scale
of its first `n` digits decide whether any rounds to `d`: when some decimal
`N * 10 ^ k` below `10 ^ n` rounds to `d`, so does `W` cut after `n` digits or
that number plus one. -/
theorem grid_candidates (d W L j N : Nat) (k : Int) (hW : W = scaledDec d)
    (hj : j + 1 < L) (hL1 : 10 ^ (L - 1) ≤ W)
    (hN : N < 10 ^ (L - (j + 1)))
    (h1 : aboveLower (decNum N k) (decDen k) d = true)
    (h2 : aboveLower (decNum N k) (decDen k) (d + 1) = false) :
    (aboveLower (W / 10 ^ (j + 1) * 10 ^ (j + 1)) 1 d = true ∧
      aboveLower (W / 10 ^ (j + 1) * 10 ^ (j + 1)) 1 (d + 1) = false) ∨
    (aboveLower ((W / 10 ^ (j + 1) + 1) * 10 ^ (j + 1)) 1 d = true ∧
      aboveLower ((W / 10 ^ (j + 1) + 1) * 10 ^ (j + 1)) 1 (d + 1) = false) := by
  obtain ⟨e1, e2⟩ := exact_interval d
  rw [← hW] at e1 e2
  have hB := decDen_pos k
  have hp : 0 < 10 ^ (j + 1) := by positivity
  have hfloor : W / 10 ^ (j + 1) * 10 ^ (j + 1) ≤ W := Nat.div_mul_le_self W _
  have hceil : W < (W / 10 ^ (j + 1) + 1) * 10 ^ (j + 1) := by
    have := Nat.lt_succ_iff.mpr (le_refl (W / 10 ^ (j + 1)))
    exact (Nat.div_lt_iff_lt_mul hp).mp this
  -- the smallest number with as many digits as `W`
  have hsplit : 10 ^ (L - 1) = 10 ^ (L - (j + 1) - 1) * 10 ^ (j + 1) := by
    rw [← pow_add]
    congr 1
    omega
  have hlow : 10 ^ (L - 1) ≤ W / 10 ^ (j + 1) * 10 ^ (j + 1) := by
    rw [hsplit]
    apply Nat.mul_le_mul_right
    apply (Nat.le_div_iff_mul_le hp).mpr
    rw [← hsplit]
    exact hL1
  have hNsmall : N * 10 ^ j < 10 ^ (L - 1) := by
    have e : 10 ^ (L - 1) = 10 ^ (L - (j + 1)) * 10 ^ j := by
      rw [← pow_add]
      congr 1
      omega
    rw [e]
    exact Nat.mul_lt_mul_of_pos_right hN (by positivity)
  have hNle : N < 10 ^ (L - 1) :=
    lt_of_le_of_lt (Nat.le_mul_of_pos_right N (by positivity)) hNsmall
  -- the decimal in units of `10 ^ (-1075)`
  by_cases hk : 0 ≤ k + 1075
  · have hA : decNum N k = N * 10 ^ (k + 1075).toNat := by simp [decNum, hk]
    have hD : decDen k = 1 := by simp [decDen, hk]
    rw [hA, hD] at h1 h2
    by_cases hbig : j + 1 ≤ (k + 1075).toNat
    · -- a multiple of the grid step
      have hmul : N * 10 ^ (k + 1075).toNat =
          N * 10 ^ ((k + 1075).toNat - (j + 1)) * 10 ^ (j + 1) := by
        rw [mul_assoc, ← pow_add]
        congr 2
        omega
      rcases Nat.le_total (N * 10 ^ (k + 1075).toNat) W with hle | hge
      · left
        apply interval_convex (N * 10 ^ (k + 1075).toNat) 1 _ 1 W 1 d
          Nat.one_pos Nat.one_pos Nat.one_pos _ _ h1 e2
        · rw [hmul, Nat.mul_one, Nat.mul_one]
          apply Nat.mul_le_mul_right
          apply (Nat.le_div_iff_mul_le hp).mpr
          rw [← hmul]
          exact hle
        · rw [Nat.mul_one, Nat.mul_one]
          exact hfloor
      · rcases Nat.eq_or_lt_of_le hge with heq | hgt
        · left
          have hexact : W / 10 ^ (j + 1) * 10 ^ (j + 1) = W := by
            rw [heq, hmul, Nat.mul_div_cancel _ hp]
          rw [hexact]
          exact ⟨e1, e2⟩
        · right
          apply interval_convex W 1 _ 1 (N * 10 ^ (k + 1075).toNat) 1 d
            Nat.one_pos Nat.one_pos Nat.one_pos _ _ e1 h2
          · rw [Nat.mul_one, Nat.mul_one]
            exact le_of_lt hceil
          · rw [hmul, Nat.mul_one, Nat.mul_one]
            apply Nat.mul_le_mul_right
            apply Nat.succ_le_of_lt
            apply (Nat.div_lt_iff_lt_mul hp).mpr
            rw [← hmul]
            exact hgt
    · -- fewer digits than the grid step: the decimal is below the first candidate
      have hlt : N * 10 ^ (k + 1075).toNat < 10 ^ (L - 1) := by
        apply lt_of_le_of_lt _ hNsmall
        apply Nat.mul_le_mul_left
        exact Nat.pow_le_pow_right (by norm_num) (by omega)
      left
      apply interval_convex (N * 10 ^ (k + 1075).toNat) 1 _ 1 W 1 d
        Nat.one_pos Nat.one_pos Nat.one_pos _ _ h1 e2
      · rw [Nat.mul_one, Nat.mul_one]
        exact le_trans (le_of_lt hlt) hlow
      · rw [Nat.mul_one, Nat.mul_one]
        exact hfloor
  · have hA : decNum N k = N := by simp [decNum, hk]
    rw [hA] at h1 h2
    left
    apply interval_convex N (decDen k) _ 1 W 1 d hB Nat.one_pos Nat.one_pos _ _ h1 e2
    · rw [Nat.mul_one]
      calc N ≤ 10 ^ (L - 1) := le_of_lt hNle
        _ ≤ W / 10 ^ (j + 1) * 10 ^ (j + 1) := hlow
        _ ≤ W / 10 ^ (j + 1) * 10 ^ (j + 1) * decDen k := Nat.le_mul_of_pos_right _ hB
    · rw [Nat.mul_one, Nat.mul_one]
      exact hfloor

theorem pick_cases {α : Type} (okLo okHi up : Bool) (lo hi next : α) :
    ((if (okLo && okHi) = true then (if up = true then hi else lo)
        else if okLo = true then lo else if okHi = true then hi else next) = lo ∧ okLo = true) ∨
    ((if (okLo && okHi) = true then (if up = true then hi else lo)
        else if okLo = true then lo else if okHi = true then hi else next) = hi ∧ okHi = true) ∨
    ((if (okLo && okHi) = true then (if up = true then hi else lo)
        else if okLo = true then lo else if okHi = true then hi else next) = next ∧
      okLo = false ∧ okHi = false) := by
  cases okLo <;> cases okHi <;> cases up <;> simp

theorem shortestSearch_succ (b W L j : Nat) :
    let lo := W / 10 ^ (j + 1)
    let k : Int := ((j + 1 : Nat) : Int) - 1075
    let hi : Nat × Int :=
      if lo + 1 = 10 ^ (L - (j + 1)) then (1, (L : Int) - 1075) else (lo + 1, k)
    (shortestSearch b W L (j + 1) = (lo, k) ∧ roundNearestEven lo k = b) ∨
    (shortestSearch b W L (j + 1) = hi ∧ roundNearestEven hi.1 hi.2 = b) ∨
    (shortestSearch b W L (j + 1) = shortestSearch b W L j ∧
      roundNearestEven lo k ≠ b ∧ roundNearestEven hi.1 hi.2 ≠ b) := by
  intro lo k hi
  have h := pick_cases (decide (roundNearestEven lo k = b))
    (decide (roundNearestEven hi.1 hi.2 = b))
    (decide (10 ^ (j + 1) < 2 * (W % 10 ^ (j + 1)) ∨
      (10 ^ (j + 1) = 2 * (W % 10 ^ (j + 1)) ∧ lo % 2 = 1)))
    (lo, k) hi (shortestSearch b W L j)
  rw [shortestSearch]
  rcases h with ⟨h1, h2⟩ | ⟨h1, h2⟩ | ⟨h1, h2, h3⟩
  · exact Or.inl ⟨h1, of_decide_eq_true h2⟩
  · exact Or.inr (Or.inl ⟨h1, of_decide_eq_true h2⟩)
  · exact Or.inr (Or.inr ⟨h1, of_decide_eq_false h2, of_decide_eq_false h3⟩)

theorem shortestSearch_spec (b W L : Nat) (hb : b < infBits) (hW : W = scaledDec b)
    (hL1 : 10 ^ (L - 1) ≤ W) (hL2 : W < 10 ^ L) (j : Nat) (hj : j < L)
    (hprev : ∀ (N : Nat) (k : Int), N < 10 ^ (L - j - 1) → roundNearestEven N k ≠ b) :
    roundNearestEven (shortestSearch b W L j).1 (shortestSearch b W L j).2 = b ∧
    0 < (shortestSearch b W L j).1 ∧
    (∀ (N : Nat) (k : Int), decimalLength N < decimalLength (shortestSearch b W L j).1 →
      roundNearestEven N k ≠ b) := by
  induction j with
  | zero =>
    have hWpos : 0 < W := lt_of_lt_of_le (by positivity) hL1
    simp only [shortestSearch]
    refine ⟨?_, hWpos, ?_⟩
    · rw [roundNearestEven_eq_iff _ _ b hb]
      have e := decNum_nat W 0
      simp only [Nat.cast_zero, zero_sub, pow_zero, mul_one] at e
      rw [e.1, e.2, hW]
      exact exact_interval b
    · intro N k hN
      rw [decimalLength_eq W L (by omega) hL1 hL2] at hN
      exact hprev N k (by simpa using lt_pow_of_decimalLength_lt N L hN)
  | succ j ih =>
    have hp : 0 < 10 ^ (j + 1) := by positivity
    have hn : 1 ≤ L - (j + 1) := by omega
    have hsplit1 : 10 ^ (L - 1) = 10 ^ (L - (j + 1) - 1) * 10 ^ (j + 1) := by
      rw [← pow_add]
      congr 1
      omega
    have hsplit2 : 10 ^ L = 10 ^ (L - (j + 1)) * 10 ^ (j + 1) := by
      rw [← pow_add]
      congr 1
      omega
    have hlo1 : 10 ^ (L - (j + 1) - 1) ≤ W / 10 ^ (j + 1) := by
      apply (Nat.le_div_iff_mul_le hp).mpr
      rw [← hsplit1]
      exact hL1
    have hlo2 : W / 10 ^ (j + 1) < 10 ^ (L - (j + 1)) := by
      apply (Nat.div_lt_iff_lt_mul hp).mpr
      rw [← hsplit2]
      exact hL2
    have hshort : ∀ (N : Nat) (k : Int), N < 10 ^ (L - (j + 1) - 1) →
        roundNearestEven N k ≠ b := hprev
    rcases shortestSearch_succ b W L j with ⟨h1, h2⟩ | ⟨h1, h2⟩ | ⟨h1, h2, h3⟩
    · rw [h1]
      refine ⟨h2, lt_of_lt_of_le (by positivity) hlo1, ?_⟩
      intro N k hN
      simp only [] at hN
      rw [decimalLength_eq _ (L - (j + 1)) hn hlo1 hlo2] at hN
      exact hshort N k (lt_pow_of_decimalLength_lt N _ hN)
    · rw [h1]
      refine ⟨h2, ?_, ?_⟩
      · split_ifs
        · exact Nat.one_pos
        · exact Nat.succ_pos _
      · intro N k hN
        split_ifs at hN with hc
        · have h1len : decimalLength 1 = 1 := decimalLength_eq 1 1 (le_refl _) (by norm_num) (by norm_num)
          simp only [] at hN
          rw [h1len] at hN
          have := (decimalLength_spec N).1
          omega
        · simp only [] at hN
          rw [decimalLength_eq (W / 10 ^ (j + 1) + 1) (L - (j + 1)) hn (by omega) (by omega)] at hN
          exact hshort N k (lt_pow_of_decimalLength_lt N _ hN)
    · rw [h1]
      apply ih (by omega)
      intro N k hN hround
      have hN2 : N < 10 ^ (L - (j + 1)) := by
        have e : L - j - 1 = L - (j + 1) := by omega
        rwa [e] at hN
      rw [roundNearestEven_eq_iff _ _ b hb] at hround
      have hcand := grid_candidates b W L j N k hW (by omega) hL1 hN2 hround.1 hround.2
      rcases hcand with hc | hc
      · apply h2
        have e := decNum_nat (W / 10 ^ (j + 1)) (j + 1)
        rw [roundNearestEven_eq_iff _ _ b hb, e.1, e.2]
        exact hc
      · apply h3
        rw [roundNearestEven_eq_iff _ _ b hb]
        split_ifs with hc2
        · have e1 := decNum_nat 1 L
          simp only [one_mul] at e1
          simp only []
          rw [e1.1, e1.2, hsplit2, ← hc2]
          exact hc
        · simp only []
          have e := decNum_nat (W / 10 ^ (j + 1) + 1) (j + 1)
          rw [e.1, e.2]
          exact hc

theorem shortestDecimal_spec (b : Nat) (hb : b < infBits) :
    roundNearestEven (shortestDecimal b).1 (shortestDecimal b).2 = b ∧
    (0 < b → 0 < (shortestDecimal b).1) ∧
    (b = 0 → shortestDecimal b = (0, 0)) ∧
    (∀ (N : Nat) (k : Int), decimalLength N < decimalLength (shortestDecimal b).1 →
      roundNearestEven N k ≠ b) := by
  by_cases h0 : b = 0
  · subst h0
    have e : shortestDecimal 0 = (0, 0) := by simp [shortestDecimal]
    rw [e]
    refine ⟨roundNearestEven_zero 0, fun h => absurd h (lt_irrefl 0), fun _ => rfl, ?_⟩
    intro N k hN
    have h1 : decimalLength 0 = 1 := by decide
    have := (decimalLength_spec N).1
    simp only [] at hN
    omega
  · have hpos : 0 < scaledDec b := scaledDec_pos b (Nat.pos_of_ne_zero h0)
    obtain ⟨l1, l2, l3⟩ := decimalLength_spec (scaledDec b)
    have e : shortestDecimal b = shortestSearch b (scaledDec b) (decimalLength (scaledDec b))
        (decimalLength (scaledDec b) - 1) := by simp [shortestDecimal, h0]
    rw [e]
    obtain ⟨s1, s2, s3⟩ := shortestSearch_spec b (scaledDec b) (decimalLength (scaledDec b)) hb rfl
      (l3 hpos) l2 (decimalLength (scaledDec b) - 1) (by omega) (by
        intro N k hN
        have hN0 : N = 0 := by
          have e2 : decimalLength (scaledDec b) - (decimalLength (scaledDec b) - 1) - 1 = 0 := by
            omega
          rw [e2] at hN
          simpa using hN
        subst hN0
        rw [roundNearestEven_zero]
        exact Ne.symm h0)
    exact ⟨s1, fun _ => s2, fun h => absurd h h0, s3⟩

/-! ## The text of the `%e` format and its reading -/

theorem takeWhile_dropWhile_digits (l r : List Char) (x : Char)
    (hl : ∀ c ∈ l, c.isDigit = true) (hx : x.isDigit = false) :
    (l ++ x :: r).takeWhile Char.isDigit = l ∧ (l ++ x :: r).dropWhile Char.isDigit = x :: r := by
  induction l with
  | nil => simp [List.takeWhile, List.dropWhile, hx]
  | cons c l ih =>
    have hc : c.isDigit = true := hl c (List.mem_cons_self _ _)
    obtain ⟨i1, i2⟩ := ih (fun d hd => hl d (List.mem_cons_of_mem _ hd))
    simp [List.takeWhile, List.dropWhile, hc, i1, i2]

theorem parseExponent_formatExponent (marker : Char) (x : Int) :
    ∃ sg xd, formatExponent marker x = marker :: sg :: xd ∧
      (sg = '+' ∨ sg = '-') ∧ 2 ≤ xd.length ∧ (∀ c ∈ xd, c.isDigit = true) ∧
      parseExponent (sg :: xd) = some x := by
  have hdig : ∃ xd, (if x.natAbs < 10 then ['0', digitChar x.natAbs]
      else (digitsRev 10 (x.natAbs + 1) x.natAbs).reverse) = xd ∧ 2 ≤ xd.length ∧
      (∀ c ∈ xd, c.isDigit = true) ∧ parseDigits xd 0 = some x.natAbs := by
    by_cases hs : x.natAbs < 10
    · refine ⟨['0', digitChar x.natAbs], by simp [hs], by simp, ?_, ?_⟩
      · intro c hc
        simp only [List.mem_cons, List.mem_singleton, List.not_mem_nil, or_false] at hc
        rcases hc with rfl | rfl
        · decide
        · exact digitChar_isDigit _ hs
      · have h0 : digitValue '0' = some 0 := by decide
        simp [parseDigits, h0, digitValue_digitChar _ hs]
    · obtain ⟨d1, d2, d3, _, _⟩ := digitsRev_spec x.natAbs x.natAbs (lt_ten_pow_succ _)
      obtain ⟨l1, l2, _⟩ := digitsRev_length x.natAbs x.natAbs (lt_ten_pow_succ _)
      refine ⟨(digitsRev 10 (x.natAbs + 1) x.natAbs).reverse, by simp [hs], ?_,
        fun c hc => d2 c (by simpa using hc), d3⟩
      rw [List.length_reverse]
      by_contra hlen
      have h1 : (digitsRev 10 (x.natAbs + 1) x.natAbs).length = 1 := by omega
      rw [h1] at l2
      omega
  obtain ⟨xd, e, hlen, hall, hparse⟩ := hdig
  have hne : xd ≠ [] := by
    intro h
    rw [h] at hlen
    simp at hlen
  by_cases hneg : x < 0
  · refine ⟨'-', xd, by simp [formatExponent, hneg, e], Or.inr rfl, hlen, hall, ?_⟩
    have hval : -((x.natAbs : Nat) : Int) = x := by
      rw [Int.ofNat_natAbs_of_nonpos (le_of_lt hneg), neg_neg]
    simp only [parseExponent, if_true, hne, if_false, hparse, Option.map_some', hval]
  · refine ⟨'+', xd, by simp [formatExponent, hneg, e], Or.inl rfl, hlen, hall, ?_⟩
    have hval : ((x.natAbs : Nat) : Int) = x := Int.natAbs_of_nonneg (not_lt.mp hneg)
    have hpm : ('+' : Char) ≠ '-' := by decide
    simp only [parseExponent, hpm, if_true, hne, if_false, hparse, Option.map_some', hval]

theorem formatDigits_shape (N : Nat) (k : Int) :
    ∃ (d0 : Char) (ds : List Char) (sg : Char) (xd : List Char),
      formatDigits 'E' N k = d0 :: ((if ds = [] then [] else '.' :: ds) ++ 'E' :: sg :: xd) ∧
      (d0 :: ds).length = decimalLength N ∧
      (∀ c ∈ d0 :: ds, c.isDigit = true) ∧
      (∃ k0, k0 < 10 ∧ d0 = digitChar k0) ∧
      (0 < N → d0 ≠ '0') ∧ (N = 0 → d0 = '0' ∧ ds = []) ∧
      (sg = '+' ∨ sg = '-') ∧ 2 ≤ xd.length ∧ (∀ c ∈ xd, c.isDigit = true) ∧
      parseDigits (d0 :: ds) 0 = some N ∧
      parseExponent (sg :: xd) = some (k + ds.length) := by
  obtain ⟨d1, d2, d3, d4, d5⟩ := digitsRev_spec N N (lt_ten_pow_succ N)
  cases hds : (digitsRev 10 (N + 1) N).reverse with
  | nil => exact absurd (List.reverse_eq_nil_iff.mp hds) d1
  | cons d0 ds =>
    obtain ⟨sg, xd, e1, e2, e3, e4, e5⟩ := parseExponent_formatExponent 'E' (k + ds.length)
    have hall : ∀ c ∈ d0 :: ds, c.isDigit = true := by
      intro c hc
      rw [← hds] at hc
      exact d2 c (by simpa using hc)
    have hhead : (0 < N → ∃ k0, 0 < k0 ∧ k0 < 10 ∧ d0 = digitChar k0) := by
      intro hN
      obtain ⟨k0, a1, a2, a3⟩ := d5 (by omega)
      rw [hds] at a3
      exact ⟨k0, a1, a2, by simpa using a3⟩
    have hzero : N = 0 → d0 = '0' ∧ ds = [] := by
      intro hN
      have h4 := d4 hN
      rw [h4] at hds
      simp only [List.reverse_cons, List.reverse_nil, List.nil_append, List.cons.injEq] at hds
      exact ⟨hds.1.symm, hds.2.symm⟩
    refine ⟨d0, ds, sg, xd, ?_, ?_, hall, ?_, ?_, hzero, e2, e3, e4, ?_, e5⟩
    · simp only [formatDigits, hds, e1]
    · rw [← hds, List.length_reverse]
      rfl
    · by_cases hN : 0 < N
      · obtain ⟨k0, _, a2, a3⟩ := hhead hN
        exact ⟨k0, a2, a3⟩
      · exact ⟨0, by norm_num, (hzero (by omega)).1⟩
    · intro hN
      obtain ⟨k0, a1, a2, a3⟩ := hhead hN
      rw [a3]
      exact digitChar_ne_zero k0 a1 a2
    · rw [← hds]
      exact d3

theorem parseDecimalFloat_format (d0 : Char) (ds : List Char) (sg : Char) (xd : List Char)
    (N : Nat) (x : Int)
    (hall : ∀ c ∈ d0 :: ds, c.isDigit = true)
    (hN : parseDigits (d0 :: ds) 0 = some N)
    (hx : parseExponent (sg :: xd) = some x) :
    parseDecimalFloat (d0 :: ((if ds = [] then [] else '.' :: ds) ++ 'E' :: sg :: xd)) =
      some (N, x - ds.length) := by
  have hd0 : d0.isDigit = true := hall d0 (List.mem_cons_self _ _)
  have hE : ('E' : Char).isDigit = false := by decide
  have hP : ('.' : Char).isDigit = false := by decide
  have hEP : ('E' : Char) ≠ '.' := by decide
  by_cases hds : ds = []
  · subst hds
    have t := takeWhile_dropWhile_digits [d0] (sg :: xd) 'E' hall hE
    simp only [List.singleton_append] at t
    simp only [if_true, List.nil_append]
    unfold parseDecimalFloat
    simp only [t.1, t.2, List.head?_cons, Option.some.injEq, hEP, if_false, List.append_nil,
      List.cons_ne_nil, hN, or_true, if_true, hx, Option.map_some', List.length_nil,
      Nat.cast_zero, neg_zero, sub_zero]
  · have hall2 : ∀ c ∈ ds, c.isDigit = true := fun c hc => hall c (List.mem_cons_of_mem _ hc)
    have t := takeWhile_dropWhile_digits [d0] (ds ++ 'E' :: sg :: xd) '.' (by
      intro c hc
      simp only [List.mem_singleton] at hc
      rw [hc]
      exact hd0) hP
    have t2 := takeWhile_dropWhile_digits ds (sg :: xd) 'E' hall2 hE
    simp only [List.singleton_append] at t
    simp only [hds, if_false, List.cons_append]
    unfold parseDecimalFloat
    simp only [t.1, t.2, List.head?_cons, if_true, List.tail_cons, t2.1, t2.2,
      List.singleton_append, List.cons_ne_nil, if_false, hN, or_true, hx, Option.map_some']

theorem digitChar_not_special (k : Nat) (hk : k < 10) :
    (digitChar k).toLower ≠ 'n' ∧ (digitChar k).toLower ≠ 'i' ∧
    (digitChar k).toLower ≠ '+' ∧ (digitChar k).toLower ≠ '-' ∧
    digitChar k ≠ '-' ∧ digitChar k ≠ '+' := by
  interval_cases k <;> decide

theorem parseFloat_of_digits (sign : Bool) (d0 : Char) (rest : List Char) (k0 : Nat)
    (hk0 : k0 < 10) (hd0 : d0 = digitChar k0) (N : Nat) (k : Int)
    (hp : parseDecimalFloat (d0 :: rest) = some (N, k)) :
    strconv.ParseFloat ⟨(if sign = true then ['-'] else []) ++ d0 :: rest⟩ =
      (⟨if sign = true then 2 ^ 63 + roundNearestEven N k else roundNearestEven N k⟩,
        decide (roundNearestEven N k = infBits)) := by
  obtain ⟨n1, n2, n3, n4, n5, n6⟩ := digitChar_not_special k0 hk0
  rw [← hd0] at n1 n2 n3 n4 n5 n6
  have hnan : ("nan" : String).data = ['n', 'a', 'n'] := rfl
  have hinf : ("inf" : String).data = ['i', 'n', 'f'] := rfl
  have hpinf : ("+inf" : String).data = ['+', 'i', 'n', 'f'] := rfl
  have hinfy : ("infinity" : String).data = ['i', 'n', 'f', 'i', 'n', 'i', 't', 'y'] := rfl
  have hpinfy : ("+infinity" : String).data = ['+', 'i', 'n', 'f', 'i', 'n', 'i', 't', 'y'] := rfl
  have hminf : ("-inf" : String).data = ['-', 'i', 'n', 'f'] := rfl
  have hminfy : ("-infinity" : String).data = ['-', 'i', 'n', 'f', 'i', 'n', 'i', 't', 'y'] := rfl
  have hm : ('-' : Char).toLower = '-' := by decide
  have hmn : ('-' : Char) ≠ 'n' := by decide
  have hmi : ('-' : Char) ≠ 'i' := by decide
  have hmp : ('-' : Char) ≠ '+' := by decide
  cases sign with
  | false =>
    simp only [Bool.false_eq_true, if_false, List.nil_append]
    unfold strconv.ParseFloat
    simp only [hnan, hinf, hpinf, hinfy, hpinfy, hminf, hminfy, List.map_cons, List.cons.injEq,
      n1, n2, n3, n4, false_and, or_false, if_false, List.head?_cons, Option.some.injEq, n5, n6,
      hp]
  | true =>
    simp only [if_true, List.singleton_append]
    unfold strconv.ParseFloat
    simp only [hnan, hinf, hpinf, hinfy, hpinfy, hminf, hminfy, List.map_cons, List.cons.injEq,
      hm, hmn, hmi, hmp, n2, false_and, and_false, or_false, if_false, List.head?_cons,
      true_or, if_true, List.tail_cons, hp, true_and]

theorem formatFloat_finite (d : Float64) (hbits : d.bits < 2 ^ 64)
    (hfin : d.isFinite = true) :
    ∃ (d0 : Char) (ds : List Char) (sg : Char) (xd : List Char),
      (formatFloatE d).data =
        (if d.signBit = true then ['-'] else []) ++
          d0 :: ((if ds = [] then [] else '.' :: ds) ++ 'E' :: sg :: xd) ∧
      (∀ c ∈ d0 :: ds, c.isDigit = true) ∧
      (d0 = '0' → d.magnitude = 0 ∧ ds = []) ∧
      (sg = '+' ∨ sg = '-') ∧ 2 ≤ xd.length ∧ (∀ c ∈ xd, c.isDigit = true) ∧
      (∀ (N : Nat) (k : Int), decimalLength N < (d0 :: ds).length →
        roundNearestEven N k ≠ d.magnitude) ∧
      strconv.ParseFloat (formatFloatE d) = (d, false) := by
  have hmag : d.magnitude < infBits := by simpa [Float64.isFinite] using hfin
  obtain ⟨s1, s2, s3, s4⟩ := shortestDecimal_spec d.magnitude hmag
  obtain ⟨d0, ds, sg, xd, f1, f2, f3, ⟨k0, hk0, f4⟩, f5, f6, f7, f8, f9, f10, f11⟩ :=
    formatDigits_shape (shortestDecimal d.magnitude).1 (shortestDecimal d.magnitude).2
  have hnan : d.isNaN = false := by
    simp only [Float64.isNaN, decide_eq_false_iff_not, not_lt]
    exact le_of_lt hmag
  have hdata : (formatFloatE d).data =
      (if d.signBit = true then ['-'] else []) ++
        d0 :: ((if ds = [] then [] else '.' :: ds) ++ 'E' :: sg :: xd) := by
    have hcond : (('E' : Char) = 'E' ∨ ('E' : Char) = 'e') ∧ (-1 : Int) = -1 ∧ (64 : Nat) = 64 :=
      ⟨Or.inl rfl, rfl, rfl⟩
    unfold formatFloatE strconv.FormatFloat
    rw [if_pos hcond, hnan]
    simp only [Bool.false_eq_true, if_false, ne_of_lt hmag, f1]
  refine ⟨d0, ds, sg, xd, hdata, f3, ?_, f7, f8, f9, ?_, ?_⟩
  · intro h0
    by_cases hz : d.magnitude = 0
    · have e := s3 hz
      exact ⟨hz, (f6 (by rw [e])).2⟩
    · exact absurd h0 (f5 (s2 (Nat.pos_of_ne_zero hz)))
  · intro N k hlen
    rw [f2] at hlen
    exact s4 N k hlen
  · have hparse := parseDecimalFloat_format d0 ds sg xd _ _ f3 f10 f11
    rw [add_sub_cancel_right] at hparse
    have hstr : formatFloatE d = ⟨(if d.signBit = true then ['-'] else []) ++
        d0 :: ((if ds = [] then [] else '.' :: ds) ++ 'E' :: sg :: xd)⟩ := by
      apply String.ext
      exact hdata
    rw [hstr, parseFloat_of_digits d.signBit d0 _ k0 hk0 f4 _ _ hparse, s1]
    have hbitsEq : (if d.signBit = true then 2 ^ 63 + d.magnitude else d.magnitude) = d.bits := by
      unfold Float64.signBit Float64.magnitude
      by_cases hs : 2 ^ 63 ≤ d.bits % 2 ^ 64
      · simp only [hs, decide_True, if_true]
        omega
      · simp only [hs, decide_False, Bool.false_eq_true, if_false]
        omega
    rw [hbitsEq]
    have hne : decide (d.magnitude = infBits) = false := by
      simp only [decide_eq_false_iff_not]
      exact ne_of_lt hmag
    rw [hne]

/-! ## Rendering of `double` values -/

/-- C10 (as amended): for a finite 64-bit floating point value `d` (neither a
NaN nor an infinity), a field of effective type `double` whose value holds `d`
under the key `double` is rendered in scientific notation: an optional minus
sign, one digit, a point and further digits when there are any, the uppercase
marker `E`, a sign and at least two exponent digits, the first digit being `0`
only for zero. No decimal with fewer significant digits rounds to `d`, and
reading the text back gives exactly `d` without error. A NaN is rendered as
`NaN` and the infinities as `+Inf` and `-Inf`. -/
theorem readRow_double_scientific (schema : Schema)
    (mapped val : List (String × Value)) (values : List String) (i : Nat)
    (field : SchemaField) (d : Float64)
    (hbits : d.bits < 2 ^ 64) (hfin : d.isFinite = true)
    (h : readRow formatFloatE (.map mapped) schema = .ret (some values) none)
    (hi : schema.Fields[i]? = some field)
    (ht : effectiveType field.Type_ = TYPE_DOUBLE)
    (hval : mapIndex mapped field.Name = .map val)
    (hv : mapIndex val "double" = .float64 d) :
    values[i]? = some (strconv.FormatFloat d 'E' (-1) 64) ∧
    readRow formatFloatE (.map [(field.Name, .map val)]) ⟨"", "", "", [field]⟩
      = .ret (some [strconv.FormatFloat d 'E' (-1) 64]) none ∧
    (∃ (d0 : Char) (ds : List Char) (sg : Char) (xd : List Char),
      (strconv.FormatFloat d 'E' (-1) 64).data =
        (if d.signBit = true then ['-'] else []) ++
          d0 :: ((if ds = [] then [] else '.' :: ds) ++ 'E' :: sg :: xd) ∧
      (∀ c ∈ d0 :: ds, c.isDigit = true) ∧
      (d0 = '0' → d.magnitude = 0 ∧ ds = []) ∧
      (sg = '+' ∨ sg = '-') ∧ 2 ≤ xd.length ∧ (∀ c ∈ xd, c.isDigit = true) ∧
      (∀ (N : Nat) (k : Int), decimalLength N < (d0 :: ds).length →
        roundNearestEven N k ≠ d.magnitude)) ∧
    strconv.ParseFloat (strconv.FormatFloat d 'E' (-1) 64) = (d, false) ∧
    (∀ e : Float64, e.isNaN = true → strconv.FormatFloat e 'E' (-1) 64 = "NaN") ∧
    (∀ e : Float64, e.magnitude = infBits →
      strconv.FormatFloat e 'E' (-1) 64 = if e.signBit = true then "-Inf" else "+Inf") := by
  have e1 : TYPE_DOUBLE ≠ TYPE_STRING := by decide
  have e2 : TYPE_DOUBLE ≠ TYPE_BOOLEAN := by decide
  have e3 : TYPE_DOUBLE ≠ TYPE_LONG := by decide
  have hfield : projectField formatFloatE field.Type_ (.map val) =
      .emit (strconv.FormatFloat d 'E' (-1) 64) := by
    simp only [projectField, ht, e1, e2, e3, if_false, if_true, hv]
    rfl
  have hcond : (('E' : Char) = 'E' ∨ ('E' : Char) = 'e') ∧ (-1 : Int) = -1 ∧ (64 : Nat) = 64 :=
    ⟨Or.inl rfl, rfl, rfl⟩
  obtain ⟨d0, ds, sg, xd, g1, g2, g3, g4, g5, g6, g7, g8⟩ := formatFloat_finite d hbits hfin
  refine ⟨?_, ?_, ⟨d0, ds, sg, xd, g1, g2, g3, g4, g5, g6, g7⟩, g8, ?_, ?_⟩
  · rw [readRow_eq_projectAll] at h
    rw [(projectAll_row formatFloatE mapped schema.Fields values h).2 i field hi, hval, hfield]
    rfl
  · rw [readRow_eq_projectAll]
    have hm : mapIndex [(field.Name, Value.map val)] field.Name = .map val := by
      simp [mapIndex]
    simp only [projectAll, hm, hfield, Outcome.cons]
  · intro e he
    unfold strconv.FormatFloat
    rw [if_pos hcond, he]
    rfl
  · intro e he
    have hn : e.isNaN = false := by
      simp only [Float64.isNaN, decide_eq_false_iff_not, not_lt]
      exact le_of_eq he
    unfold strconv.FormatFloat
    rw [if_pos hcond, hn]
    simp only [Bool.false_eq_true, if_false, he, if_true]

theorem readRow_double_scientific_witness :
    readRow formatFloatE (.map [("x", .map [("double", .float64 ⟨0x3FF8000000000000⟩)])])
        ⟨"r", "record", "", [⟨"x", ["null", "double"]⟩]⟩
      = .ret (some ["1.5E+00"]) none ∧
    strconv.ParseFloat (strconv.FormatFloat ⟨0x3FF8000000000000⟩ 'E' (-1) 64)
      = (⟨0x3FF8000000000000⟩, false) ∧
    strconv.FormatFloat ⟨0x3FF8000000000000⟩ 'E' (-1) 64 = "1.5E+00" ∧
    strconv.FormatFloat ⟨0x3FB999999999999A⟩ 'E' (-1) 64 = "1E-01" ∧
    strconv.FormatFloat ⟨0x7FEFFFFFFFFFFFFF⟩ 'E' (-1) 64 = "1.7976931348623157E+308" ∧
    strconv.FormatFloat ⟨0x8000000000000001⟩ 'E' (-1) 64 = "-5E-324" :=
  ⟨by decide!,
    (readRow_double_scientific ⟨"r", "record", "", [⟨"x", ["null", "double"]⟩]⟩
      [("x", .map [("double", .float64 ⟨0x3FF8000000000000⟩)])]
      [("double", .float64 ⟨0x3FF8000000000000⟩)] ["1.5E+00"] 0
      ⟨"x", ["null", "double"]⟩ ⟨0x3FF8000000000000⟩ (by decide) (by decide) (by decide!)
      (by decide) (by decide) rfl rfl).2.2.2.1,
    by decide!, by decide!, by decide!, by decide!⟩

/-- C10 (counterexample): a NaN and the infinities are values of a `double`
field, and `readRow` renders them as `NaN`, `+Inf` and `-Inf`: texts without
digits and without the exponent marker `E`, so not in scientific notation. -/
theorem readRow_double_counterexample :
    readRow formatFloatE (.map [("x", .map [("double", .float64 ⟨0x7FF8000000000001⟩)])])
        ⟨"r", "record", "", [⟨"x", ["double"]⟩]⟩
      = .ret (some ["NaN"]) none ∧
    readRow formatFloatE (.map [("x", .map [("double", .float64 ⟨0x7FF0000000000000⟩)])])
        ⟨"r", "record", "", [⟨"x", ["double"]⟩]⟩
      = .ret (some ["+Inf"]) none ∧
    readRow formatFloatE (.map [("x", .map [("double", .float64 ⟨0xFFF0000000000000⟩)])])
        ⟨"r", "record", "", [⟨"x", ["double"]⟩]⟩
      = .ret (some ["-Inf"]) none ∧
    strings.Contains "NaN" "E" = false ∧ strings.Contains "+Inf" "E" = false ∧
    strings.Contains "-Inf" "E" = false := by
  decide

end Avro
